import Mathlib

/-!
Verification of the `cpp_codes` example programs of `coding_lab`: a shallow embedding of
their functions and proofs of their contracts.

Conventions of the embedding.

* C++ `int` is modelled by `Int` (exact integers: signed overflow is undefined
  behaviour in C++, so the contracts are about runs without overflow).  `/` and `%`
  on `int` truncate towards zero: `Int.tdiv` and `Int.tmod`.
* Where a contract is stated for all values of `int`, the functions are modelled over the
  32-bit machine integer as well (`Machine.gcd`, `Machine.operatorPlus`): `+` and `*`
  wrap around, a division that the machine cannot carry out returns `none`.
* The standard library is not part of the repository.  `std::sort` is modelled by its
  result; the random number engine, `std::shuffle` and `std::sample`, on which the
  printed text depends, follow the library of GCC 12.
* A nullable pointer to an owned node is an inductive type with a `null`
  constructor.
* A function that prints takes the text printed so far and returns it extended;
  a printed `int` is recorded as its value, the separators being constant.
-/

namespace CodingLab

/-! ## `function_usage_examples.cpp` -/

/-- Source: `int gcd(int a, int b) { return b == 0 ? a : gcd(b, a % b); }` -/
def gcd (a b : Int) : Int :=
  if b = 0 then a else gcd b (Int.tmod a b)
termination_by b.natAbs
decreasing_by
  have habs : (Int.tmod a b).natAbs = a.natAbs % b.natAbs := by
    cases a <;> cases b <;>
      simp only [Int.tmod, Int.natAbs_neg, Int.natAbs_ofNat, Int.natAbs_negSucc,
        Int.ofNat_eq_coe]
  rw [habs]
  exact Nat.mod_lt _ (Int.natAbs_pos.mpr (by assumption))

/-- Source: `std::pair<int, int> operator+(std::pair<int, int> frac1,
std::pair<int, int> frac2)`.  The two divisions by `divisor` are undefined when `divisor` is
zero: `none`. -/
def operatorPlus (frac1 frac2 : Int × Int) : Option (Int × Int) :=
  let num := frac1.1 * frac2.2 + frac2.1 * frac1.2
  let den := frac1.2 * frac2.2
  let divisor := gcd num den
  if divisor = 0 then none
  else
    let num := Int.tdiv num divisor
    let den := Int.tdiv den divisor
    some (num, den)

/-- Source: `int factorial(int n)`, `if (n <= 1) return 1; return n * factorial(n - 1);` -/
def factorial (n : Int) : Int :=
  if n ≤ 1 then 1 else n * factorial (n - 1)
termination_by n.toNat
decreasing_by omega

/-! ### `int` as a machine integer

The contracts above are over exact integers.  On the machines that run the programs an
`int` has 32 bits: `+` and `*` wrap around, and the division instruction behind `/` and `%`
traps on a zero divisor and on `INT_MIN / -1` (the program is killed and returns nothing). -/

/-- The least `int`. -/
def INT_MIN : Int := -2147483648

/-- The greatest `int`. -/
def INT_MAX : Int := 2147483647

/-- The values of an `int`. -/
def IsInt (x : Int) : Prop := INT_MIN ≤ x ∧ x ≤ INT_MAX

/-- The `int` an exact result wraps around to. -/
def wrapInt (x : Int) : Int := (x + 2147483648) % 4294967296 - 2147483648

/-- The division `a / b` of `int`: it traps (`none`) at `b == 0` and at `INT_MIN / -1`. -/
def Machine.div (a b : Int) : Option Int :=
  if b = 0 then none
  else if a = INT_MIN ∧ b = -1 then none
  else some (Int.tdiv a b)

/-- Source: `int gcd(int a, int b) { return b == 0 ? a : gcd(b, a % b); }` on the machine:
`a % b` traps (`none`) at `INT_MIN % -1`. -/
def Machine.gcd (a b : Int) : Option Int :=
  if b = 0 then some a
  else if a = INT_MIN ∧ b = -1 then none
  else Machine.gcd b (Int.tmod a b)
termination_by b.natAbs
decreasing_by
  have habs : (Int.tmod a b).natAbs = a.natAbs % b.natAbs := by
    cases a <;> cases b <;>
      simp only [Int.tmod, Int.natAbs_neg, Int.natAbs_ofNat, Int.natAbs_negSucc,
        Int.ofNat_eq_coe]
  rw [habs]
  exact Nat.mod_lt _ (Int.natAbs_pos.mpr (by assumption))

/-- Source: `std::pair<int, int> operator+(std::pair<int, int> frac1,
std::pair<int, int> frac2)` on the machine: the products and the sum wrap around, `gcd` and
the two divisions may trap (`none`). -/
def Machine.operatorPlus (frac1 frac2 : Int × Int) : Option (Int × Int) :=
  let num := wrapInt (wrapInt (frac1.1 * frac2.2) + wrapInt (frac2.1 * frac1.2))
  let den := wrapInt (frac1.2 * frac2.2)
  match Machine.gcd num den with
  | none => none
  | some divisor =>
    match Machine.div num divisor with
    | none => none
    | some num =>
      match Machine.div den divisor with
      | none => none
      | some den => some (num, den)

/-! ## `pointer_vs_reference.cpp` -/

/-- Source: `int Add(const int &x, const int &y)`: a reference always designates an
`int`. -/
def Add_ref (x y : Int) : Int := x + y

/-- Source: `std::optional<int> Add(const int *x, const int *y)`: a `const int*` is null
(`none`) or points to an `int` (`some`); the result is `std::nullopt` (`none`) or a
value. -/
def Add_ptr (x y : Option Int) : Option Int :=
  if x = none ∨ y = none then none
  else
    match x, y with
    | some vx, some vy => some (vx + vy)
    | _, _ => none

/-! ## `data_structure_tree.cpp` -/

/-- A pointer to a `BinaryTreeNode` (`const BinaryTreeNode*`,
`std::unique_ptr<BinaryTreeNode>`): null, or a node with its `value` and the pointers
`left` and `right` to the subtrees it owns. -/
inductive BinaryTreeNode where
  | null : BinaryTreeNode
  | node (value : Int) (left right : BinaryTreeNode) : BinaryTreeNode
  deriving DecidableEq, Repr

/-- A pointer to a `TreeNode` (`const TreeNode*`, `std::shared_ptr<TreeNode>`): null, or a
node with its `value` and the vector `children` of pointers to its subtrees. -/
inductive TreeNode where
  | null : TreeNode
  | node (value : Int) (children : List TreeNode) : TreeNode

/-- The test `!node` of the source. -/
def BinaryTreeNode.isNull : BinaryTreeNode → Bool
  | .null => true
  | .node _ _ _ => false

/-- The assignment `node->left = child` through a non-null pointer `node`. -/
def BinaryTreeNode.setLeft : BinaryTreeNode → BinaryTreeNode → BinaryTreeNode
  | .null, _ => .null
  | .node value _ right, child => .node value child right

/-- The assignment `node->right = child` through a non-null pointer `node`. -/
def BinaryTreeNode.setRight : BinaryTreeNode → BinaryTreeNode → BinaryTreeNode
  | .null, _ => .null
  | .node value left _, child => .node value left child

/-- An update of the node `node->right` in place, through a non-null pointer `node`. -/
def BinaryTreeNode.updateRight :
    BinaryTreeNode → (BinaryTreeNode → BinaryTreeNode) → BinaryTreeNode
  | .null, _ => .null
  | .node value left right, f => .node value left (f right)

/-- Source: `std::unique_ptr<BinaryTreeNode> makeBinaryTree()`, the tree it returns: `1`
with children `2` and `3`, `3` with left child `4` (the call of `printBinaryTree` on it is
not part of the embedding). -/
def makeBinaryTree : BinaryTreeNode :=
  let root := BinaryTreeNode.node 1 .null .null
  let root := root.setLeft (.node 2 .null .null)
  let root := root.setRight (.node 3 .null .null)
  let root := root.updateRight (fun right => right.setLeft (.node 4 .null .null))
  root

/-- The call `node->children.push_back(child)` through a non-null pointer `node`. -/
def TreeNode.push_back : TreeNode → TreeNode → TreeNode
  | .null, _ => .null
  | .node value children, child => .node value (children ++ [child])

/-- An update of the node `node->children[i]` in place, through a non-null pointer
`node`. -/
def TreeNode.updateChild : TreeNode → Nat → (TreeNode → TreeNode) → TreeNode
  | .null, _, _ => .null
  | .node value children, i, f => .node value (children.set i (f (children.getD i .null)))

/-- Source: `std::unique_ptr<TreeNode> makeTree()`, the tree it returns: `0` with children
`1`, `2`, `3`, and `1` with child `5` (the call of `printTree` on it is not part of the
embedding). -/
def makeTree : TreeNode :=
  let root := TreeNode.node 0 []
  let root := root.push_back (.node 1 [])
  let root := root.push_back (.node 2 [])
  let root := root.push_back (.node 3 [])
  let root := root.updateChild 0 (fun child => child.push_back (.node 5 []))
  root

/-- Source: `void dfsForBinaryTree(const BinaryTreeNode* node)`, on the values printed so
far. -/
def dfsForBinaryTree : BinaryTreeNode → List Int → List Int
  | .null, out => out
  | .node value left right, out =>
    let out := out ++ [value]
    let out := dfsForBinaryTree left out
    dfsForBinaryTree right out

/-- Number of nodes below the pointer; summed over the queue, the measure of the loop of
`bfsForBinaryTree`. -/
def BinaryTreeNode.size : BinaryTreeNode → Nat
  | .null => 0
  | .node _ left right => 1 + left.size + right.size

/-- The `while (!q.empty())` loop of `bfsForBinaryTree`, on the queue and the values printed
so far; `none` is the dereference of a null pointer taken from the queue. -/
def bfsForBinaryTree.loop (q : List BinaryTreeNode) (out : List Int) : Option (List Int) :=
  match q with
  | [] => some out
  | curr :: q =>
    match curr with
    | .null => none
    | .node value left right =>
      let out := out ++ [value]
      let q := if left.isNull then q else q ++ [left]
      let q := if right.isNull then q else q ++ [right]
      bfsForBinaryTree.loop q out
termination_by (q.map BinaryTreeNode.size).sum
decreasing_by
  simp only [List.map_cons, List.sum_cons, BinaryTreeNode.size]
  split <;> split <;>
    (try simp only [List.map_append, List.sum_append, List.map_cons, List.sum_cons,
      List.map_nil, List.sum_nil]) <;> omega

/-- Source: `void bfsForBinaryTree(const BinaryTreeNode* root)`, on the values printed so
far. -/
def bfsForBinaryTree (root : BinaryTreeNode) (out : List Int) : Option (List Int) :=
  if root.isNull then some out
  else bfsForBinaryTree.loop [root] out

mutual
/-- Source: `void dfsForTree(const TreeNode* node)`, on the values printed so far. -/
def dfsForTree : TreeNode → List Int → List Int
  | .null, out => out
  | .node value children, out =>
    let out := out ++ [value]
    dfsForTree.loop children out
/-- The loop `for (const auto& child : node->children)` of `dfsForTree`. -/
def dfsForTree.loop : List TreeNode → List Int → List Int
  | [], out => out
  | child :: rest, out => dfsForTree.loop rest (dfsForTree child out)
end

/-! ### Reference notions for the traversals -/

/-- Number of nodes on the longest path from the pointer down: `0` for null. -/
def BinaryTreeNode.height : BinaryTreeNode → Nat
  | .null => 0
  | .node _ left right => 1 + max left.height right.height

/-- The values of the nodes at depth `d` below the pointer (the root has depth `0`), from
left to right. -/
def BinaryTreeNode.valuesAtDepth : BinaryTreeNode → Nat → List Int
  | .null, _ => []
  | .node value _ _, 0 => [value]
  | .node _ left right, d + 1 => left.valuesAtDepth d ++ right.valuesAtDepth d

/-- The values of all the nodes below the pointer, one entry for each node. -/
def BinaryTreeNode.values : BinaryTreeNode → List Int
  | .null => []
  | .node value left right => value :: (left.values ++ right.values)

/-- The level order of a binary tree: its levels from depth `0` on, each from left to
right, one after the other. -/
def BinaryTreeNode.levelOrder (root : BinaryTreeNode) : List Int :=
  ((List.range root.height).map root.valuesAtDepth).flatten

mutual
/-- Number of nodes below a `TreeNode` pointer. -/
def TreeNode.size : TreeNode → Nat
  | .null => 0
  | .node _ children => 1 + TreeNode.sizeList children
/-- Number of nodes below the pointers of a vector of children. -/
def TreeNode.sizeList : List TreeNode → Nat
  | [] => 0
  | child :: rest => child.size + TreeNode.sizeList rest
end

/-! ### The queue of the breadth-first traversal, level by level -/

/-- What `if (curr->left) q.push(curr->left.get())` appends to the queue. -/
def BinaryTreeNode.pushed (t : BinaryTreeNode) : List BinaryTreeNode :=
  if t.isNull then [] else [t]

/-- The pointers pushed while the nodes of a queue are visited in turn. -/
def BinaryTreeNode.childQueue : List BinaryTreeNode → List BinaryTreeNode
  | [] => []
  | .null :: q => BinaryTreeNode.childQueue q
  | .node _ left right :: q => left.pushed ++ right.pushed ++ BinaryTreeNode.childQueue q

/-- The values at depth `d` below the pointers of a queue, from the front on. -/
def BinaryTreeNode.levelOfQueue (q : List BinaryTreeNode) (d : Nat) : List Int :=
  (q.map (fun t => t.valuesAtDepth d)).flatten

/-- The values of all the nodes below the pointers of a queue. -/
def BinaryTreeNode.valuesOfQueue (q : List BinaryTreeNode) : List Int :=
  (q.map BinaryTreeNode.values).flatten

/-! ## `container_vector.cpp`

The text printed by the vector program is recorded as the list of the calls of
`printVector`: the name and the vector of each.  `std::sort`, `std::shuffle`, `std::sample`
and the random number engine belong to the C++ standard library, not to the repository. -/

/-- The requirement of the standard on a comparator (`Compare`): a strict weak ordering. -/
def StrictWeakOrdering (comp : Int → Int → Bool) : Prop :=
  (∀ a, comp a a = false) ∧
  (∀ a b c, comp a b = true → comp b c = true → comp a c = true) ∧
  (∀ a b c, comp a b = false → comp b a = false → comp b c = false → comp c b = false →
    comp a c = false ∧ comp c a = false)

/-- The guarantee of the standard on `std::sort(first, last, comp)`: the range is a
rearrangement of what it was and is sorted with respect to `comp`, that is, no element
compares less than one before it. -/
def StdSortContract (sort : (Int → Int → Bool) → List Int → List Int) : Prop :=
  ∀ comp vec, StrictWeakOrdering comp →
    (sort comp vec).Perm vec ∧ (sort comp vec).Pairwise (fun a b => comp b a = false)

/-- Modelled from the spec: the insertion step of `stdSort`, which puts `value` before the
first element of a sorted range that `value` compares less than. -/
def stdSort.insert (comp : Int → Int → Bool) (value : Int) : List Int → List Int
  | [] => [value]
  | x :: rest =>
    if comp value x then value :: x :: rest else x :: stdSort.insert comp value rest

/-- Modelled from the spec: `std::sort(first, last, comp)` is standard-library code and is
not in the repository; the spec gives its result (sorting `[5, 3, 8, ...]` ascending yields
`[1, 2, 3, ...]`).  The model returns the range sorted with respect to `comp`, which it
builds by insertion; it does not follow the steps of a particular library.  For `<` and
`>` on `int` its result is the only one the guarantee of the standard allows
(`stdSort_unique_lt`, `stdSort_unique_gt`). -/
def stdSort (comp : Int → Int → Bool) : List Int → List Int
  | [] => []
  | x :: rest => stdSort.insert comp x (stdSort comp rest)

/-- Section 5.1 of `void sortingAndOrderingAlgorithms()` from the first `printVector` on,
for the vector `vec` the section declares. -/
def sortingAndOrderingAlgorithms.onVector (vec : List Int)
    (out : List (String × List Int)) : List (String × List Int) :=
  let out := out ++ [("Initial vector", vec)]
  let vec := stdSort (fun a b => decide (a < b)) vec
  let out := out ++ [("Modified vector", vec)]
  let vec := stdSort (fun a b => decide (a > b)) vec
  let out := out ++ [("Modified vector", vec)]
  out

/-- Section 5.1 of `void sortingAndOrderingAlgorithms()`: the calls of `std::sort` on the
vector `{5, 3, 8, 3, 1, 2, 7, 4, 6}`. -/
def sortingAndOrderingAlgorithms (out : List (String × List Int)) :
    List (String × List Int) :=
  let vec : List Int := [5, 3, 8, 3, 1, 2, 7, 4, 6]
  sortingAndOrderingAlgorithms.onVector vec out

/-! ### The random number library behind `std::shuffle` and `std::sample`

What `randomizationAlgorithms` and `additionalAlgorithms` print is decided by the standard
library they are compiled against.  The definitions below follow the library of GCC 12
(libstdc++: `bits/random.h`, `bits/random.tcc`, `bits/uniform_int_dist.h`,
`bits/stl_algo.h`), for the types the two functions instantiate: the engine `std::mt19937`,
whose words have 32 bits, and positions in a `std::vector<int>`.  Unsigned machine words are
natural numbers reduced modulo the word size where the library can exceed it.  A library
call that does not return, or whose behaviour is undefined, returns `none`. -/

/-- Library: the state of `std::mt19937`, the 624 words `_M_x` and the position `_M_p`. -/
structure mt19937 where
  x : List Nat
  p : Nat

/-- Library: one step of the loops of `_M_gen_rand`:
`y = (_M_x[k] & upper_mask) | (_M_x[k1] & lower_mask);
_M_x[k] = _M_x[km] ^ (y >> 1) ^ ((y & 1) ? a : 0)`, with `r = 31` and `a = 0x9908b0df`. -/
def mt19937.twist (x : List Nat) (k k1 km : Nat) : List Nat :=
  let y := (x.getD k 0 &&& 0x80000000) ||| (x.getD k1 0 &&& 0x7fffffff)
  x.set k (x.getD km 0 ^^^ (y >>> 1) ^^^ (if y &&& 1 = 1 then 0x9908b0df else 0))

/-- Library: `mersenne_twister_engine::_M_gen_rand()`, with `n = 624` and `m = 397`: the
loop over `k < n - m` (with `km = k + m`), the loop over `n - m <= k < n - 1` (with
`km = k + (m - n)`), the last word (`k = n - 1`, `k1 = 0`, `km = m - 1`), `_M_p = 0`. -/
def mt19937.gen_rand (g : mt19937) : mt19937 :=
  let x := g.x
  let x := (List.range 227).foldl (fun x k => mt19937.twist x k (k + 1) (k + 397)) x
  let x := (List.range' 227 396).foldl (fun x k => mt19937.twist x k (k + 1) (k - 227)) x
  let x := mt19937.twist x 623 0 396
  { x := x, p := 0 }

/-- Library: `mersenne_twister_engine::operator()()`: the next word of the engine, tempered
with `u = 11`, `d = 0xffffffff`, `s = 7`, `b = 0x9d2c5680`, `t = 15`, `c = 0xefc60000`,
`l = 18`; returned with the state the call leaves. -/
def mt19937.next (g : mt19937) : Nat × mt19937 :=
  let g := if g.p ≥ 624 then g.gen_rand else g
  let z := g.x.getD g.p 0
  let g := { g with p := g.p + 1 }
  let z := z ^^^ ((z >>> 11) &&& 0xffffffff)
  let z := z ^^^ ((z <<< 7) &&& 0x9d2c5680)
  let z := z ^^^ ((z <<< 15) &&& 0xefc60000)
  let z := z ^^^ (z >>> 18)
  (z, g)

/-- Library: the loop `while (low < threshold)` of `_S_nd`, which draws again while the
low half of the product is below the threshold.  Nothing in the library bounds the number
of draws; the model gives up (`none`) after `fuel` of them. -/
def uniform_int_distribution.S_nd.loop :
    Nat → mt19937 → Nat → Nat → Nat → Option (Nat × mt19937)
  | 0, g, _, threshold, product =>
    let low := product % 4294967296
    if low < threshold then none else some (product >>> 32, g)
  | fuel + 1, g, range, threshold, product =>
    let low := product % 4294967296
    if low < threshold then
      let (r, g) := g.next
      let product := r * range
      uniform_int_distribution.S_nd.loop fuel g range threshold product
    else some (product >>> 32, g)

/-- Library: `uniform_int_distribution::_S_nd<uint64_t>(g, range)` for a 32-bit `range`
(Lemire's method): `product = uint64(g()) * uint64(range); low = uint32(product);
if (low < range) { threshold = -range % range; while (low < threshold) ... }
return product >> 32`.  The loop is followed for at most 64 further draws. -/
def uniform_int_distribution.S_nd (g : mt19937) (range : Nat) : Option (Nat × mt19937) :=
  let (r, g) := g.next
  let product := r * range
  let low := product % 4294967296
  if low < range then
    let threshold := (4294967296 - range) % range
    uniform_int_distribution.S_nd.loop 64 g range threshold product
  else some (product >>> 32, g)

/-- Library: `uniform_int_distribution::operator()(urng, param_type(a, b))` for the engine
`std::mt19937`, whose range `urngrange` is `2^32 - 1`: a narrower range goes through
`_S_nd`, an equal range takes the engine's word.  A wider range (more than `2^32` values)
is not modelled: no vector of the program comes near it. -/
def uniform_int_distribution (g : mt19937) (a b : Nat) : Option (Nat × mt19937) :=
  let urngrange := 4294967295
  let urange := b - a
  if urngrange > urange then
    let uerange := urange + 1
    match uniform_int_distribution.S_nd g uerange with
    | none => none
    | some (ret, g) => some (ret + a, g)
  else if urngrange < urange then none
  else
    let (ret, g) := g.next
    some (ret + a, g)

/-- Library: `__gen_two_uniform_ints(b0, b1, g)`:
`x = uniform_int_distribution{0, (b0 * b1) - 1}(g); return make_pair(x / b1, x % b1)`. -/
def gen_two_uniform_ints (b0 b1 : Nat) (g : mt19937) : Option ((Nat × Nat) × mt19937) :=
  match uniform_int_distribution g 0 (b0 * b1 - 1) with
  | none => none
  | some (x, g) => some ((x / b1, x % b1), g)

/-- Library: `std::iter_swap(first + i, first + j)` on the elements of a vector; a position
outside the vector is undefined behaviour. -/
def iter_swap (vec : List Int) (i j : Nat) : Option (List Int) :=
  match vec[i]?, vec[j]? with
  | some a, some b => some ((vec.set i b).set j a)
  | _, _ => none

/-- Library: the loop `while (i != last)` of `std::shuffle`, which handles two positions
per draw: `swap_range = (i - first) + 1;
pospos = __gen_two_uniform_ints(swap_range, swap_range + 1, g);
iter_swap(i++, first + pospos.first); iter_swap(i++, first + pospos.second)`.  The number
of positions left is even, so the first argument counts the passes. -/
def shuffle.pairs : Nat → List Int → Nat → mt19937 → Option (List Int × mt19937)
  | 0, vec, _, g => some (vec, g)
  | passes + 1, vec, i, g =>
    let swap_range := i + 1
    match gen_two_uniform_ints swap_range (swap_range + 1) g with
    | none => none
    | some (pospos, g) =>
      match iter_swap vec i pospos.1 with
      | none => none
      | some vec =>
        match iter_swap vec (i + 1) pospos.2 with
        | none => none
        | some vec => shuffle.pairs passes vec (i + 2) g

/-- Library: the loop `for (i = first + 1; i != last; ++i)` of `std::shuffle` for long
ranges: `iter_swap(i, first + d(g, param_type(0, i - first)))`. -/
def shuffle.single : Nat → List Int → Nat → mt19937 → Option (List Int × mt19937)
  | 0, vec, _, g => some (vec, g)
  | passes + 1, vec, i, g =>
    match uniform_int_distribution g 0 i with
    | none => none
    | some (pos, g) =>
      match iter_swap vec i pos with
      | none => none
      | some vec => shuffle.single passes vec (i + 1) g

/-- Library: `std::shuffle(first, last, g)` on a vector: nothing for an empty range; if
`urngrange / urange >= urange`, one swap up front (a draw from `{0, 1}`) when the number of
elements is even and then the loop over pairs of positions; otherwise one draw per
position.  Returns the vector and the engine as the call leaves them. -/
def shuffle (vec : List Int) (g : mt19937) : Option (List Int × mt19937) :=
  if vec.length = 0 then some (vec, g)
  else
    let urngrange := 4294967295
    let urange := vec.length
    if urngrange / urange ≥ urange then
      let i := 1
      if urange % 2 = 0 then
        match uniform_int_distribution g 0 1 with
        | none => none
        | some (pos, g) =>
          match iter_swap vec i pos with
          | none => none
          | some vec => shuffle.pairs ((urange - (i + 1)) / 2) vec (i + 1) g
      else shuffle.pairs ((urange - i) / 2) vec i g
    else shuffle.single (urange - 1) vec 1 g

/-- Library: the state of the loops of `__sample`: the population from `first` on, the
elements written to `out` so far, the number `n` still to select, `unsampled_sz`, and the
engine. -/
structure sample.State where
  first : List Int
  out : List Int
  n : Nat
  unsampled_sz : Nat
  g : mt19937

/-- Library: the statements `if (p < n) { *out++ = *first; --n; } ++first` of `__sample`;
reading `*first` at the end of the population is undefined behaviour. -/
def sample.select (p : Nat) (s : sample.State) : Option sample.State :=
  match s.first with
  | [] => none
  | element :: rest =>
    if p < s.n then some { s with first := rest, out := s.out ++ [element], n := s.n - 1 }
    else some { s with first := rest }

/-- Library: the loop `while (n != 0 && unsampled_sz >= 2)` of `__sample`, two elements per
draw: `p = __gen_two_uniform_ints(unsampled_sz, unsampled_sz - 1, g); --unsampled_sz;`
select by `p.first`; `if (n == 0) break; --unsampled_sz;` select by `p.second`.  Each pass
moves `first` on, so the passes are bounded by the length of the population (the first
argument). -/
def sample.pairs : Nat → sample.State → Option sample.State
  | 0, s => if s.n ≠ 0 ∧ s.unsampled_sz ≥ 2 then none else some s
  | passes + 1, s =>
    if s.n ≠ 0 ∧ s.unsampled_sz ≥ 2 then
      match gen_two_uniform_ints s.unsampled_sz (s.unsampled_sz - 1) s.g with
      | none => none
      | some (p, g) =>
        let s := { s with g := g, unsampled_sz := s.unsampled_sz - 1 }
        match sample.select p.1 s with
        | none => none
        | some s =>
          if s.n = 0 then some s
          else
            let s := { s with unsampled_sz := s.unsampled_sz - 1 }
            match sample.select p.2 s with
            | none => none
            | some s => sample.pairs passes s
    else some s

/-- Library: the loop `for (; n != 0; ++first)` of `__sample`, one element per draw:
`if (d(g, param_type{0, --unsampled_sz}) < n) { *out++ = *first; --n; }`. -/
def sample.single : Nat → sample.State → Option sample.State
  | 0, s => if s.n ≠ 0 then none else some s
  | passes + 1, s =>
    if s.n ≠ 0 then
      let s := { s with unsampled_sz := s.unsampled_sz - 1 }
      match uniform_int_distribution s.g 0 s.unsampled_sz with
      | none => none
      | some (p, g) =>
        match sample.select p { s with g := g } with
        | none => none
        | some s => sample.single passes s
    else some s

/-- Library: `std::sample(first, last, out, n, g)` from a vector into a back inserter
(selection sampling, `__sample` for forward iterators): nothing for an empty population;
`n = min(n, unsampled_sz)`; the loop over pairs if
`urngrange / unsampled_sz >= unsampled_sz`; then the loop over single elements.  Returns
the elements written to `out`. -/
def sample (vec : List Int) (n : Nat) (g : mt19937) : Option (List Int) :=
  if vec.length = 0 then some []
  else
    let unsampled_sz := vec.length
    let n := min n unsampled_sz
    let s : sample.State := { first := vec, out := [], n := n, unsampled_sz := unsampled_sz, g := g }
    let urngrange := 4294967295
    let s := if urngrange / unsampled_sz ≥ unsampled_sz then sample.pairs vec.length s else some s
    match s with
    | none => none
    | some s =>
      match sample.single vec.length s with
      | none => none
      | some s => some s.out

/-- A `double` as far as its comparison with zero goes: not a number, an infinity, or a
finite value. -/
inductive Double where
  | nan : Double
  | negInf : Double
  | posInf : Double
  | finite (q : ℚ) : Double
  deriving DecidableEq

/-- The comparison `x < 0` on a `double`. -/
def Double.ltZero : Double → Bool
  | .nan => false
  | .negInf => true
  | .posInf => false
  | .finite q => decide (q < 0)

/-- The comparison `x >= 0` on a `double`. -/
def Double.geZero : Double → Bool
  | .nan => false
  | .negInf => false
  | .posInf => true
  | .finite q => decide (q ≥ 0)

/-- The exceptions of the demo, all derived from `std::exception`, with their `what()`. -/
inductive Exception where
  | invalid_argument (what : String) : Exception
  | future_error (what : String) : Exception
  deriving DecidableEq

/-- Source: `ex.what()` -/
def Exception.what : Exception → String
  | .invalid_argument what => what
  | .future_error what => what

/-- The shared state of a `std::promise<double>` and its `std::future<double>`: not ready,
or holding a value, or holding an exception. -/
inductive SharedState where
  | notReady : SharedState
  | value (v : Double) : SharedState
  | exception (e : Exception) : SharedState
  deriving DecidableEq

/-- Source: `resultPromise.set_value(v)`: stores the value, or throws when the state is
already satisfied. -/
def set_value (resultPromise : SharedState) (v : Double) : Except Exception SharedState :=
  match resultPromise with
  | .notReady => .ok (.value v)
  | _ => .error (.future_error "Promise already satisfied")

/-- Source: `resultPromise.set_exception(e)`: stores the exception, or throws when the
state is already satisfied. -/
def set_exception (resultPromise : SharedState) (e : Exception) :
    Except Exception SharedState :=
  match resultPromise with
  | .notReady => .ok (.exception e)
  | _ => .error (.future_error "Promise already satisfied")

/-- The lambda `producer` of `usePromiseAndFuture` (the sleep left out); `sqrt` is the
library function.  The result is the state of the promise, or the exception that leaves
the lambda. -/
def producer (sqrt : Double → Double) (resultPromise : SharedState) (x : Double) :
    Except Exception SharedState :=
  let tryBlock : Except Exception SharedState :=
    if x.ltZero then .error (.invalid_argument "Negative input for computation!")
    else set_value resultPromise (sqrt x)
  match tryBlock with
  | .ok resultPromise => .ok resultPromise
  | .error current_exception => set_exception resultPromise current_exception

/-- A line written by the consumer: to `std::cout` or to `std::cerr`. -/
inductive Line where
  | cout (text : String) : Line
  | cerr (text : String) : Line
  deriving DecidableEq

/-- The lambda `consumer` of `usePromiseAndFuture`; `fmt` is the text `operator<<` writes
for a `double`.  On a state that is never made ready `get()` does not return. -/
def consumer (fmt : Double → String) (resultFuture : SharedState) : List Line :=
  let out := [Line.cout "Consumer waiting for computation result ..."]
  match resultFuture with
  | .notReady => out
  | .value result => out ++ [Line.cout ("Computation result: " ++ fmt result)]
  | .exception ex => out ++ [Line.cerr ("Error during computation: " ++ ex.what)]

/-- The producer run on a fresh promise with input `x`, then the consumer on its future:
`usePromiseAndFuture` is this at `x = 10`.  An exception that leaves the producer ends the
program. -/
def usePromiseAndFutureWith (sqrt : Double → Double) (fmt : Double → String) (x : Double) :
    List Line :=
  match producer sqrt .notReady x with
  | .ok resultFuture => consumer fmt resultFuture
  | .error _ => []

/-- Source: `void usePromiseAndFuture()` -/
def usePromiseAndFuture (sqrt : Double → Double) (fmt : Double → String) : List Line :=
  usePromiseAndFutureWith sqrt fmt (.finite 10)

/-! ## `storage_class_specifiers.cpp` -/

/-- Source: `void useStatic()`.  The variable `staticVar` has static storage: the call
takes its value and returns the value it leaves, with the lines printed so far extended by
the text and the number the call prints. -/
def useStatic (staticVar : Int) (out : List (String × Int)) : Int × List (String × Int) :=
  let staticVar := staticVar + 1
  let out := out ++ [("Static variable: ", staticVar)]
  (staticVar, out)

/-- The value `static int staticVar = 0` has before the first call of `useStatic`. -/
def staticVarInit : Int := 0

/-- The first `k` calls of `useStatic` of a program run, one after the other: the value of
`staticVar` and the lines printed after them. -/
def useStaticCalls : Nat → Int × List (String × Int)
  | 0 => (staticVarInit, [])
  | k + 1 =>
    let (staticVar, out) := useStaticCalls k
    useStatic staticVar out

/-! ## `function_usage_examples.cpp`: the variadic function -/

/-- The loop `for (int i = 0; i < count; ++i) total += va_arg(args, int);` of
`calculateSum`, on the arguments not yet read; reading past the last argument is
undefined: `none`. -/
def calculateSum.loop (count : Int) (i : Int) (args : List Int) (total : Int) : Option Int :=
  if i < count then
    match args with
    | [] => none
    | arg :: args => calculateSum.loop count (i + 1) args (total + arg)
  else some total
termination_by (count - i).toNat
decreasing_by omega

/-- Source: `int calculateSum(int count, ...)`; `args` are the arguments after `count`. -/
def calculateSum (count : Int) (args : List Int) : Option Int :=
  let total := 0
  calculateSum.loop count 0 args total

/-! ## `memory_management.cpp`

A run of `dynamicMemoryAllocationInCPlusPlus` is recorded as the list of what it does with
memory and what it reports, in order.  Whether a `new` expression returns or throws
`std::bad_alloc` is an input of the run: `newSucceeds n` tells it for the `n`-th `new`
expression evaluated (counted from `0`). -/

/-- The value of a pointer variable: never assigned (`int *ptr;`, or an element of the
array `new int *[numRows]`), null, or the array returned by the `id`-th `new`. -/
inductive Pointer where
  | uninitialized : Pointer
  | null : Pointer
  | block (id : Nat) : Pointer
  deriving DecidableEq

/-- What a run does, step by step:
* `allocated id size`: a `new` expression returned the array `id` of `size` elements;
* `message`: the line `Memory allocation failed: ...` is printed;
* `readElements ptr size`: the call `print(ptr, size)` reads `ptr[0]`, ..., `ptr[size - 1]`;
* `deleteArray ptr`: the expression `delete[] ptr`;
* `loadRow matrix i`: the element `matrix[i]` is read through `matrix`;
* `storeRow matrix i`: the element `matrix[i]` is assigned through `matrix`;
* `storeElement row j value`: the element `row[j]` is assigned;
* `readMatrix matrix numRows numColumns`: the call `print(matrix, numRows, numColumns)`. -/
inductive MemEvent where
  | allocated (id : Nat) (size : Nat) : MemEvent
  | message : MemEvent
  | readElements (ptr : Pointer) (size : Nat) : MemEvent
  | deleteArray (ptr : Pointer) : MemEvent
  | loadRow (matrix : Pointer) (i : Nat) : MemEvent
  | storeRow (matrix : Pointer) (i : Nat) : MemEvent
  | storeElement (row : Pointer) (j : Nat) (value : Int) : MemEvent
  | readMatrix (matrix : Pointer) (numRows numColumns : Nat) : MemEvent
  deriving DecidableEq

/-- The value read as `matrix[i]`, `rows` being the elements of the array `matrix` points
to: nothing determined can be read through a pointer that points to no array. -/
def rowPointer (matrix : Pointer) (rows : List Pointer) (i : Nat) : Pointer :=
  match matrix with
  | .block _ => rows.getD i .uninitialized
  | _ => .uninitialized

/-- The loop `for (i = 0; i < numRows; ++i) matrix[i] = new int[numColumns];` of the second
`try` block, on the iterations that remain; `next` counts the `new` expressions evaluated.
The first component of the result tells whether `std::bad_alloc` left the loop. -/
def allocateRows (newSucceeds : Nat → Bool) (matrix : Pointer) (numColumns : Nat) :
    List Nat → Nat → List Pointer → List MemEvent → Bool × List Pointer × List MemEvent
  | [], _, rows, out => (false, rows, out)
  | i :: rest, next, rows, out =>
    if newSucceeds next then
      let out := out ++ [.allocated next numColumns, .storeRow matrix i]
      let rows := rows.set i (.block next)
      allocateRows newSucceeds matrix numColumns rest (next + 1) rows out
    else (true, rows, out)

/-- The loop `for (i = 0; i < numRows; ++i) delete[] matrix[i];`, on the iterations that
remain. -/
def deleteRows (matrix : Pointer) (rows : List Pointer) :
    List Nat → List MemEvent → List MemEvent
  | [], out => out
  | i :: rest, out =>
    let out := out ++ [.loadRow matrix i, .deleteArray (rowPointer matrix rows i)]
    deleteRows matrix rows rest out

/-- The loop `for (j = 0; j < numColumns; ++j) matrix[i][j] = i + j;` of row `i`, on the
iterations that remain. -/
def fillRow (matrix : Pointer) (rows : List Pointer) (i : Nat) :
    List Nat → List MemEvent → List MemEvent
  | [], out => out
  | j :: rest, out =>
    let out := out ++ [.loadRow matrix i,
      .storeElement (rowPointer matrix rows i) j ((i : Int) + (j : Int))]
    fillRow matrix rows i rest out

/-- The loop `for (i = 0; i < numRows; ++i)` around `fillRow`, on the iterations that
remain. -/
def fillRows (matrix : Pointer) (rows : List Pointer) (numColumns : Nat) :
    List Nat → List MemEvent → List MemEvent
  | [], out => out
  | i :: rest, out =>
    let out := fillRow matrix rows i (List.range numColumns) out
    fillRows matrix rows numColumns rest out

/-- Source: `void dynamicMemoryAllocationInCPlusPlus()`. -/
def dynamicMemoryAllocationInCPlusPlus (newSucceeds : Nat → Bool) : List MemEvent :=
  let size := 5
  let ptr := Pointer.uninitialized
  let out : List MemEvent := []
  -- the first try block; its catch block prints the message and falls through
  let (ptr, out) :=
    if newSucceeds 0 then (Pointer.block 0, out ++ [.allocated 0 size])
    else (ptr, out ++ [.message])
  let out := out ++ [.readElements ptr size]
  let out := out ++ [.deleteArray ptr]
  let numRows := 2
  let numColumns := 3
  let matrix := Pointer.null
  -- the second try block; `thrown` tells whether its catch block is entered
  let (thrown, matrix, rows, out) :=
    if newSucceeds 1 then
      let matrix := Pointer.block 1
      let rows := List.replicate numRows Pointer.uninitialized
      let out := out ++ [.allocated 1 numRows]
      let (thrown, rows, out) :=
        allocateRows newSucceeds matrix numColumns (List.range numRows) 2 rows out
      (thrown, matrix, rows, out)
    else (true, matrix, [], out)
  if thrown then
    let out := out ++ [.message]
    let out := deleteRows matrix rows (List.range numRows) out
    out
  else
    let out := fillRows matrix rows numColumns (List.range numRows) out
    let out := out ++ [.readMatrix matrix numRows numColumns]
    let out := deleteRows matrix rows (List.range numRows) out
    let out := out ++ [.deleteArray matrix]
    out

/-- The events that touch memory no `new` returned: reading elements or a row pointer
through a pointer that is not an allocated array, and `delete[]` of a pointer that was never
assigned. -/
def MemEvent.touchesUnallocated : MemEvent → Bool
  | .readElements (.block _) _ => false
  | .readElements _ _ => true
  | .deleteArray .uninitialized => true
  | .deleteArray _ => false
  | .loadRow (.block _) _ => false
  | .loadRow _ _ => true
  | _ => false

/-! ## `thread_usage.cpp`: `useMutex`

The run of `useMutex` is a transition system: the main thread and the `numThreads = 3`
threads that run `threadFunction` each take one step at a time, in any order (an
interleaving).  A thread that calls `mtx.lock()` while the mutex is held has no step, and
neither has the main thread in `join` on a thread that has not finished.  The statement
`sharedResource += 1` is a read followed by a write. -/

/-- Where a thread that runs `threadFunction` stands: before its `std::thread` is
constructed (`notCreated`), before `mtx.lock()` (`atLock`), before the output of `Thread id
is modifying sharedResource` (`atAnnounce`), before the read and before the write of
`sharedResource += 1` (`atRead`, `atWrite`), before the output of `sharedResource value:`
(`atPrint`), before `mtx.unlock()` (`atUnlock`), or at its end (`finished`). -/
inductive WorkerPc where
  | notCreated : WorkerPc
  | atLock : WorkerPc
  | atAnnounce : WorkerPc
  | atRead : WorkerPc
  | atWrite : WorkerPc
  | atPrint : WorkerPc
  | atUnlock : WorkerPc
  | finished : WorkerPc
  deriving DecidableEq

/-- Where the main thread stands in `useMutex`: before the output of the initial value,
before the test `i < numThreads` of the loop that constructs the threads, before the test
of the loop that joins them, before the output of the final value, or at the end. -/
inductive MainPc where
  | atInitial : MainPc
  | atSpawn (i : Nat) : MainPc
  | atJoin (i : Nat) : MainPc
  | atFinal : MainPc
  | finished : MainPc
  deriving DecidableEq

/-- A line written to `std::cout` by `useMutex`: `Initial sharedResource value: v`,
`Thread id is modifying sharedResource`, `sharedResource value: v` (recorded with the
thread that writes it), `Final sharedResource value: v`. -/
inductive MutexLine where
  | initial (value : Int) : MutexLine
  | modifying (id : Int) : MutexLine
  | value (thread : Fin 3) (value : Int) : MutexLine
  | final (value : Int) : MutexLine
  deriving DecidableEq

/-- The state of a run of `useMutex`: the thread that holds `mtx` if any, `sharedResource`,
the position of the main thread and of the three threads, the value each thread has read in
`sharedResource += 1`, and the lines written so far. -/
structure MutexState where
  mtx : Option (Fin 3)
  sharedResource : Int
  main : MainPc
  pc : Fin 3 → WorkerPc
  tmp : Fin 3 → Int
  out : List MutexLine

/-- The state in which `useMutex` starts: `mtx` free, `sharedResource{0}`, no thread. -/
def MutexState.init : MutexState where
  mtx := none
  sharedResource := 0
  main := .atInitial
  pc := fun _ => .notCreated
  tmp := fun _ => 0
  out := []

/-- One step of the main thread of `useMutex`, when it has one. -/
def stepMain (s : MutexState) : Option MutexState :=
  match s.main with
  | .atInitial =>
    some { s with out := s.out ++ [.initial s.sharedResource], main := .atSpawn 0 }
  | .atSpawn i =>
    if h : i < 3 then
      some { s with pc := Function.update s.pc ⟨i, h⟩ .atLock, main := .atSpawn (i + 1) }
    else some { s with main := .atJoin 0 }
  | .atJoin i =>
    if h : i < 3 then
      if s.pc ⟨i, h⟩ = .finished then some { s with main := .atJoin (i + 1) } else none
    else some { s with main := .atFinal }
  | .atFinal =>
    some { s with out := s.out ++ [.final s.sharedResource], main := .finished }
  | .finished => none

/-- One step of the thread constructed in iteration `k` (its `id` is `k + 1`), when it has
one: the lambda `threadFunction` of `useMutex`.  The sleep between the write and the output
changes nothing of the state and is no step. -/
def stepWorker (s : MutexState) (k : Fin 3) : Option MutexState :=
  match s.pc k with
  | .notCreated => none
  | .atLock =>
    if s.mtx = none then
      some { s with mtx := some k, pc := Function.update s.pc k .atAnnounce }
    else none
  | .atAnnounce =>
    some { s with out := s.out ++ [.modifying ((k.val : Int) + 1)],
                  pc := Function.update s.pc k .atRead }
  | .atRead =>
    some { s with tmp := Function.update s.tmp k s.sharedResource,
                  pc := Function.update s.pc k .atWrite }
  | .atWrite =>
    some { s with sharedResource := s.tmp k + 1, pc := Function.update s.pc k .atPrint }
  | .atPrint =>
    some { s with out := s.out ++ [.value k s.sharedResource],
                  pc := Function.update s.pc k .atUnlock }
  | .atUnlock =>
    some { s with mtx := none, pc := Function.update s.pc k .finished }
  | .finished => none

/-- One step of the thread the scheduler picks: the main thread (`none`) or one of the
three threads. -/
def stepThread (s : MutexState) : Option (Fin 3) → Option MutexState
  | none => stepMain s
  | some k => stepWorker s k

/-- The steps of a schedule, from a state on; `none` when a thread picked has no step. -/
def runSchedule (s : MutexState) : List (Option (Fin 3)) → Option MutexState
  | [] => some s
  | thread :: rest =>
    match stepThread s thread with
    | some s => runSchedule s rest
    | none => none

/-- Source: `void useMutex()`: the state reached by the run that follows a schedule. -/
def useMutex (schedule : List (Option (Fin 3))) : Option MutexState :=
  runSchedule MutexState.init schedule

/-- Whether a thread at this position holds `mtx`: it is between `mtx.lock()` and
`mtx.unlock()`, where the read-modify-write of `sharedResource` is. -/
def WorkerPc.inCriticalSection : WorkerPc → Bool
  | .atAnnounce | .atRead | .atWrite | .atPrint | .atUnlock => true
  | _ => false

/-- The lines `sharedResource value: v` among the lines written, each with its thread. -/
def valueLines : List MutexLine → List (Fin 3 × Int)
  | [] => []
  | .value thread v :: rest => (thread, v) :: valueLines rest
  | _ :: rest => valueLines rest

/-- A schedule of a complete run: the second thread takes the mutex first, before the
third thread is constructed. -/
def sampleSchedule : List (Option (Fin 3)) :=
  [none, none, none, some 1, some 1, none, some 1, some 1, none, some 1, some 1,
   some 2, some 2, some 2, some 2, some 2, some 2,
   some 0, some 0, some 0, some 0, some 0, some 0,
   none, none, none, none, none]

/-- Whether a thread at this position has written `sharedResource` (`1`) or not (`0`). -/
def WorkerPc.wrote : WorkerPc → Nat
  | .atPrint | .atUnlock | .finished => 1
  | _ => 0

/-- Whether a thread at this position has written its line `sharedResource value:` (`1`)
or not (`0`). -/
def WorkerPc.printed : WorkerPc → Nat
  | .atUnlock | .finished => 1
  | _ => 0

/-- Whether a thread at this position holds `mtx` (`1`) or not (`0`). -/
def WorkerPc.holds (pc : WorkerPc) : Nat :=
  if pc.inCriticalSection then 1 else 0

/-- The number of threads counted by `g` at their positions. -/
def countThreads (g : WorkerPc → Nat) (pc : Fin 3 → WorkerPc) : Nat :=
  g (pc 0) + g (pc 1) + g (pc 2)

/-- What the position of the main thread tells of the three threads: none is constructed
before its iteration of the first loop, the joined ones have finished, and at the end the
last line is `Final sharedResource value: 3`. -/
def MainOk (main : MainPc) (pc : Fin 3 → WorkerPc) (out : List MutexLine) : Prop :=
  match main with
  | .atInitial => ∀ k, pc k = .notCreated
  | .atSpawn i => ∀ k : Fin 3, i ≤ k.val → pc k = .notCreated
  | .atJoin i => ∀ k : Fin 3, k.val < i → pc k = .finished
  | .atFinal => ∀ k, pc k = .finished
  | .finished => (∀ k, pc k = .finished) ∧ out.getLast? = some (.final 3)

/-- The invariant of the run of `useMutex`: `mtx` is held exactly when one thread is in its
critical section, `sharedResource` counts the threads that have written it, the values
written in the lines `sharedResource value:` are `1`, `2`, ... in this order, one line for
each thread that has passed its output, and a thread about to write `sharedResource` has read
its current value. -/
structure MutexInv (s : MutexState) : Prop where
  held : countThreads WorkerPc.holds s.pc = if s.mtx = none then 0 else 1
  shared : s.sharedResource = ((countThreads WorkerPc.wrote s.pc : Nat) : Int)
  values : (valueLines s.out).map Prod.snd
    = (List.range' 1 (countThreads WorkerPc.printed s.pc)).map Int.ofNat
  tmp : ∀ k, s.pc k = .atWrite → s.tmp k = s.sharedResource
  nodup : ((valueLines s.out).map Prod.fst).Nodup
  mem : ∀ k, k ∈ (valueLines s.out).map Prod.fst ↔ (s.pc k).printed = 1
  main : MainOk s.main s.pc s.out

/-- What holds of the holder of `mtx` and of the threads not yet constructed in a run of
`useMutex`: the holder is in its critical section, and a thread is not constructed only
while the main thread has not reached its iteration of the first loop. -/
structure MutexLive (s : MutexState) : Prop where
  owner : ∀ k, s.mtx = some k → (s.pc k).inCriticalSection = true
  created : ∀ k : Fin 3, s.pc k = .notCreated →
    s.main = .atInitial ∨ ∃ i, s.main = .atSpawn i ∧ i ≤ k.val

/-- How far the main thread is: the number of steps it has taken at least. -/
def MainPc.rank : MainPc → Nat
  | .atInitial => 0
  | .atSpawn i => 1 + min i 3
  | .atJoin i => 5 + min i 3
  | .atFinal => 9
  | .finished => 10

/-- How far a thread is: the number of steps it has taken, plus one once constructed. -/
def WorkerPc.rank : WorkerPc → Nat
  | .notCreated => 0
  | .atLock => 1
  | .atAnnounce => 2
  | .atRead => 3
  | .atWrite => 4
  | .atPrint => 5
  | .atUnlock => 6
  | .finished => 7

/-- A measure of a state that every step increases and that is at most `31`. -/
def MutexState.rank (s : MutexState) : Nat :=
  s.main.rank + countThreads WorkerPc.rank s.pc

/-! ## Theorems: `gcd` and `operator+` -/

theorem natAbs_tmod (a b : Int) : (Int.tmod a b).natAbs = a.natAbs % b.natAbs := by
  cases a <;> cases b <;>
    simp only [Int.tmod, Int.natAbs_neg, Int.natAbs_ofNat, Int.natAbs_negSucc, Int.ofNat_eq_coe]

theorem gcd_zero_right (a : Int) : gcd a 0 = a := by
  rw [gcd]; simp

theorem gcd_of_ne_zero (a b : Int) (h : b ≠ 0) : gcd a b = gcd b (Int.tmod a b) := by
  rw [gcd]; simp [h]

/-- One unfolding of `gcd` at a non-zero second argument, the remainder being given. -/
theorem gcd_step (a b r : Int) (hb : b ≠ 0) (hr : Int.tmod a b = r) : gcd a b = gcd b r := by
  rw [gcd_of_ne_zero a b hb, hr]

theorem natAbs_gcd (a b : Int) : (gcd a b).natAbs = Nat.gcd a.natAbs b.natAbs := by
  induction a, b using gcd.induct with
  | case1 a => rw [gcd_zero_right]; simp
  | case2 a b hb ih =>
    rw [gcd_of_ne_zero a b hb, ih, natAbs_tmod]
    exact (Nat.gcd_comm _ _).trans
      ((Nat.gcd_rec b.natAbs a.natAbs).symm.trans (Nat.gcd_comm _ _))

theorem gcd_nonneg (a b : Int) (ha : 0 ≤ a) (hb : 0 ≤ b) : 0 ≤ gcd a b := by
  induction a, b using gcd.induct with
  | case1 a => rw [gcd_zero_right]; exact ha
  | case2 a b hne ih =>
    rw [gcd_of_ne_zero a b hne]
    exact ih hb (Int.tmod_nonneg b ha)

theorem gcd_ne_zero_of_right (a b : Int) (hb : b ≠ 0) : gcd a b ≠ 0 := by
  intro h
  have h1 := natAbs_gcd a b
  rw [h, Int.natAbs_zero] at h1
  have h2 := Nat.gcd_eq_zero_iff.mp h1.symm
  exact hb (Int.natAbs_eq_zero.mp h2.2)

theorem gcd_dvd_left (a b : Int) : gcd a b ∣ a := by
  rw [← Int.natAbs_dvd_natAbs, natAbs_gcd]; exact Nat.gcd_dvd_left _ _

theorem gcd_dvd_right (a b : Int) : gcd a b ∣ b := by
  rw [← Int.natAbs_dvd_natAbs, natAbs_gcd]; exact Nat.gcd_dvd_right _ _

/-- The value `operator+` returns when the product of the denominators is not zero. -/
theorem operatorPlus_eq (n1 d1 n2 d2 : Int) (h1 : d1 ≠ 0) (h2 : d2 ≠ 0) :
    operatorPlus (n1, d1) (n2, d2)
      = some (Int.tdiv (n1 * d2 + n2 * d1) (gcd (n1 * d2 + n2 * d1) (d1 * d2)),
              Int.tdiv (d1 * d2) (gcd (n1 * d2 + n2 * d1) (d1 * d2))) := by
  have hg := gcd_ne_zero_of_right (n1 * d2 + n2 * d1) (d1 * d2) (mul_ne_zero h1 h2)
  simp only [operatorPlus]
  rw [if_neg hg]

/-- C1: for fractions `(n1, d1)` and `(n2, d2)` with non-zero denominators, `operator+`
returns a pair `(n, d)` with `d ≠ 0` that denotes the sum:
`n * (d1 * d2) = (n1 * d2 + n2 * d1) * d`. -/
theorem operatorPlus_sum (n1 d1 n2 d2 : Int) (h1 : d1 ≠ 0) (h2 : d2 ≠ 0) :
    ∃ n d, operatorPlus (n1, d1) (n2, d2) = some (n, d) ∧ d ≠ 0 ∧
      n * (d1 * d2) = (n1 * d2 + n2 * d1) * d := by
  have hden : d1 * d2 ≠ 0 := mul_ne_zero h1 h2
  have hn := Int.tdiv_mul_cancel (gcd_dvd_left (n1 * d2 + n2 * d1) (d1 * d2))
  have hd := Int.tdiv_mul_cancel (gcd_dvd_right (n1 * d2 + n2 * d1) (d1 * d2))
  refine ⟨_, _, operatorPlus_eq n1 d1 n2 d2 h1 h2, ?_, ?_⟩
  · intro h0
    rw [h0, zero_mul] at hd
    exact hden hd.symm
  · generalize gcd (n1 * d2 + n2 * d1) (d1 * d2) = g at hn hd
    generalize Int.tdiv (n1 * d2 + n2 * d1) g = n at hn hd
    generalize Int.tdiv (d1 * d2) g = d at hn hd
    rw [← hn, ← hd]; ring

/-- The sum of `1/2` and `1/4` is `3/4`, and it satisfies the contract of C1. -/
theorem operatorPlus_sum_witness :
    (2 : Int) ≠ 0 ∧ (4 : Int) ≠ 0 ∧ operatorPlus (1, 2) (1, 4) = some (3, 4) ∧
      ∃ n d, operatorPlus (1, 2) (1, 4) = some (n, d) ∧ d ≠ 0 ∧
        n * (2 * 4) = (1 * 4 + 1 * 2) * d := by
  refine ⟨by decide, by decide, ?_, operatorPlus_sum 1 2 1 4 (by decide) (by decide)⟩
  rw [operatorPlus_eq 1 2 1 4 (by decide) (by decide)]
  have hg : gcd (1 * 4 + 1 * 2) (2 * 4) = 2 := by
    rw [gcd_step (1 * 4 + 1 * 2) (2 * 4) 6 (by decide) (by decide),
      gcd_step (2 * 4) 6 2 (by decide) (by decide), gcd_step 6 2 0 (by decide) (by decide),
      gcd_zero_right]
  rw [hg]; decide

/-! ## Theorems: `gcd` and `operator+` on the machine -/

theorem machine_gcd_zero (a : Int) : Machine.gcd a 0 = some a := by
  rw [Machine.gcd]; simp

theorem machine_gcd_trap : Machine.gcd INT_MIN (-1) = none := by
  rw [Machine.gcd]; simp [INT_MIN]

theorem machine_gcd_step (a b : Int) (hb : b ≠ 0) (h : ¬ (a = INT_MIN ∧ b = -1)) :
    Machine.gcd a b = Machine.gcd b (Int.tmod a b) := by
  rw [Machine.gcd]; simp only [hb, h, if_false]

theorem wrapInt_of_isInt (x : Int) (h : IsInt x) : wrapInt x = x := by
  obtain ⟨h1, h2⟩ := h
  simp only [INT_MIN, INT_MAX] at h1 h2
  simp only [wrapInt]
  omega

/-- Away from the two pairs at which the evaluation meets `INT_MIN % -1`, the machine
computes the `gcd` of the exact integers. -/
theorem machine_gcd_eq (a b : Int) (ha : IsInt a) (hb : IsInt b)
    (h1 : ¬ (a = INT_MIN ∧ b = -1)) (h2 : ¬ (a = -1 ∧ b = INT_MIN)) :
    Machine.gcd a b = some (gcd a b) := by
  induction a, b using gcd.induct with
  | case1 a => rw [machine_gcd_zero, gcd_zero_right]
  | case2 a b hne ih =>
    rw [machine_gcd_step a b hne h1, gcd_of_ne_zero a b hne]
    have habs := natAbs_tmod a b
    have hlt : a.natAbs % b.natAbs < b.natAbs := Nat.mod_lt _ (Int.natAbs_pos.mpr hne)
    have hsign : Int.tmod a b < 0 → a < 0 := by
      intro hr
      by_contra hna
      have := Int.tmod_nonneg b (not_lt.mp hna)
      omega
    have hdiv := Int.tmod_add_tdiv a b
    obtain ⟨ha1, ha2⟩ := ha
    obtain ⟨hb1, hb2⟩ := hb
    simp only [INT_MIN, INT_MAX] at *
    apply ih
    · constructor <;> simp only [INT_MIN, INT_MAX] <;> omega
    · constructor <;> simp only [INT_MIN, INT_MAX] <;> omega
    · rintro ⟨hb', hr⟩
      have hneg := hsign (by omega)
      rw [hr, hb'] at hdiv
      apply h2
      constructor
      · generalize Int.tdiv a (-2147483648) = q at hdiv
        omega
      · exact hb'
    · rintro ⟨hb', hr⟩
      rw [hr, hb'] at habs
      have hmod : a.natAbs % 1 = 0 := Nat.mod_one _
      have hone : (-1 : Int).natAbs = 1 := rfl
      rw [hone, hmod] at habs
      omega

/-- Counterexample to C3 as stated: `INT_MIN` and `-1` are ints whose greatest common divisor
`1` is an int, but `gcd(INT_MIN, -1)` and `gcd(-1, INT_MIN)` return nothing: the evaluation
meets `INT_MIN % -1`, which traps. -/
theorem machine_gcd_counterexample :
    IsInt INT_MIN ∧ IsInt (-1) ∧ Nat.gcd INT_MIN.natAbs (-1 : Int).natAbs = 1 ∧
      Machine.gcd INT_MIN (-1) = none ∧ Machine.gcd (-1) INT_MIN = none := by
  refine ⟨⟨by decide, by decide⟩, ⟨by decide, by decide⟩, by decide, machine_gcd_trap, ?_⟩
  rw [machine_gcd_step (-1) INT_MIN (by decide) (by decide)]
  exact machine_gcd_trap

/-- C3, amended: for all ints `a` and `b` other than the pairs `(INT_MIN, -1)` and
`(-1, INT_MIN)`, `gcd(a, b)` returns a value whose absolute value is the greatest common
divisor of `|a|` and `|b|`; `gcd(a, 0)` is `a`; and for non-negative `a`, `b` the result is
exactly the non-negative gcd. -/
theorem machine_gcd_spec (a b : Int) (ha : IsInt a) (hb : IsInt b)
    (h1 : ¬ (a = INT_MIN ∧ b = -1)) (h2 : ¬ (a = -1 ∧ b = INT_MIN)) :
    ∃ g, Machine.gcd a b = some g ∧ g.natAbs = Nat.gcd a.natAbs b.natAbs ∧
      Machine.gcd a 0 = some a ∧
      (0 ≤ a → 0 ≤ b → g = ((Nat.gcd a.toNat b.toNat : Nat) : Int)) := by
  refine ⟨gcd a b, machine_gcd_eq a b ha hb h1 h2, natAbs_gcd a b, machine_gcd_zero a, ?_⟩
  intro hna hnb
  have h := natAbs_gcd a b
  have hnn := gcd_nonneg a b hna hnb
  rw [← Int.natAbs_of_nonneg hnn, h]
  congr 2
  · omega
  · omega

/-- The amended C3 at `a = 6`, `b = 8`, two non-negative ints: the result is `2`; and at
`a = INT_MIN`, `b = 6`: the result is `-2`. -/
theorem machine_gcd_spec_witness :
    IsInt 6 ∧ IsInt 8 ∧ ¬ ((6 : Int) = INT_MIN ∧ (8 : Int) = -1) ∧
      ¬ ((6 : Int) = -1 ∧ (8 : Int) = INT_MIN) ∧
      (∃ g, Machine.gcd 6 8 = some g ∧ g.natAbs = 2 ∧ Machine.gcd 6 0 = some 6 ∧ g = 2) ∧
      Machine.gcd INT_MIN 6 = some (-2) := by
  obtain ⟨g, hg, habs, hzero, hnn⟩ :=
    machine_gcd_spec 6 8 ⟨by decide, by decide⟩ ⟨by decide, by decide⟩ (by decide) (by decide)
  refine ⟨⟨by decide, by decide⟩, ⟨by decide, by decide⟩, by decide, by decide,
    ⟨g, hg, habs, hzero, hnn (by decide) (by decide)⟩, ?_⟩
  have hr1 : Int.tmod INT_MIN 6 = -2 := by decide
  have hr2 : Int.tmod 6 (-2) = 0 := by decide
  rw [machine_gcd_step INT_MIN 6 (by decide) (by decide), hr1,
    machine_gcd_step 6 (-2) (by decide) (by decide), hr2, machine_gcd_zero]

theorem machine_div_eq (a b : Int) (hb : b ≠ 0) (ha : a ≠ INT_MIN) :
    Machine.div a b = some (Int.tdiv a b) := by
  simp [Machine.div, hb, ha]

/-- When the exact products, sum and product of denominators lie between `-INT_MAX` and
`INT_MAX`, `operator+` on the machine returns what it returns on exact integers. -/
theorem machine_operatorPlus_eq (n1 d1 n2 d2 : Int) (h1 : d1 ≠ 0) (h2 : d2 ≠ 0)
    (hp1 : -INT_MAX ≤ n1 * d2 ∧ n1 * d2 ≤ INT_MAX)
    (hp2 : -INT_MAX ≤ n2 * d1 ∧ n2 * d1 ≤ INT_MAX)
    (hs : -INT_MAX ≤ n1 * d2 + n2 * d1 ∧ n1 * d2 + n2 * d1 ≤ INT_MAX)
    (hd : -INT_MAX ≤ d1 * d2 ∧ d1 * d2 ≤ INT_MAX) :
    Machine.operatorPlus (n1, d1) (n2, d2)
      = some (Int.tdiv (n1 * d2 + n2 * d1) (gcd (n1 * d2 + n2 * d1) (d1 * d2)),
              Int.tdiv (d1 * d2) (gcd (n1 * d2 + n2 * d1) (d1 * d2))) := by
  have hg := gcd_ne_zero_of_right (n1 * d2 + n2 * d1) (d1 * d2) (mul_ne_zero h1 h2)
  have w1 : wrapInt (n1 * d2) = n1 * d2 :=
    wrapInt_of_isInt _ ⟨by simp only [INT_MIN, INT_MAX] at *; omega, hp1.2⟩
  have w2 : wrapInt (n2 * d1) = n2 * d1 :=
    wrapInt_of_isInt _ ⟨by simp only [INT_MIN, INT_MAX] at *; omega, hp2.2⟩
  have w3 : wrapInt (n1 * d2 + n2 * d1) = n1 * d2 + n2 * d1 :=
    wrapInt_of_isInt _ ⟨by simp only [INT_MIN, INT_MAX] at *; omega, hs.2⟩
  have w4 : wrapInt (d1 * d2) = d1 * d2 :=
    wrapInt_of_isInt _ ⟨by simp only [INT_MIN, INT_MAX] at *; omega, hd.2⟩
  have hnum : n1 * d2 + n2 * d1 ≠ INT_MIN := by
    simp only [INT_MIN, INT_MAX] at *; omega
  have hden : d1 * d2 ≠ INT_MIN := by
    simp only [INT_MIN, INT_MAX] at *; omega
  have hgcd : Machine.gcd (n1 * d2 + n2 * d1) (d1 * d2)
      = some (gcd (n1 * d2 + n2 * d1) (d1 * d2)) :=
    machine_gcd_eq _ _ ⟨by simp only [INT_MIN, INT_MAX] at *; omega, hs.2⟩
      ⟨by simp only [INT_MIN, INT_MAX] at *; omega, hd.2⟩
      (fun h => hnum h.1) (fun h => hden h.2)
  simp only [Machine.operatorPlus, w1, w2, w3, w4, hgcd, machine_div_eq _ _ hg hnum,
    machine_div_eq _ _ hg hden]

/-- Counterexample to C2 as stated: `0/65536` and `0/65536` are fractions of ints with
non-zero denominators, but `operator+` returns no pair for them: the product of the
denominators wraps around to `0`, `gcd(0, 0)` is `0`, and the division by it traps. -/
theorem machine_operatorPlus_counterexample :
    IsInt 0 ∧ IsInt 65536 ∧ (65536 : Int) ≠ 0 ∧
      Machine.operatorPlus (0, 65536) (0, 65536) = none ∧
      ¬ ∃ n d, Machine.operatorPlus (0, 65536) (0, 65536) = some (n, d) ∧
        Nat.gcd n.natAbs d.natAbs = 1 := by
  have h : Machine.operatorPlus (0, 65536) (0, 65536) = none := by
    have hnum : wrapInt (wrapInt (0 * 65536) + wrapInt (0 * 65536)) = 0 := by decide
    have hden : wrapInt (65536 * 65536) = 0 := by decide
    simp only [Machine.operatorPlus, hnum, hden, machine_gcd_zero]
    rfl
  refine ⟨⟨by decide, by decide⟩, ⟨by decide, by decide⟩, by decide, h, ?_⟩
  rintro ⟨n, d, hnd, _⟩
  rw [h] at hnd
  cases hnd

/-- C2, amended: for fractions of ints with non-zero denominators whose products `n1 * d2`,
`n2 * d1`, `d1 * d2` and sum `n1 * d2 + n2 * d1` lie between `-INT_MAX` and `INT_MAX` (no
operation overflows), `operator+` returns the sum in lowest terms: a pair `(n, d)` with
`d ≠ 0` and `n * (d1 * d2) = (n1 * d2 + n2 * d1) * d` whose numerator and denominator have
coprime absolute values. -/
theorem machine_operatorPlus_lowest_terms (n1 d1 n2 d2 : Int) (h1 : d1 ≠ 0) (h2 : d2 ≠ 0)
    (hp1 : -INT_MAX ≤ n1 * d2 ∧ n1 * d2 ≤ INT_MAX)
    (hp2 : -INT_MAX ≤ n2 * d1 ∧ n2 * d1 ≤ INT_MAX)
    (hs : -INT_MAX ≤ n1 * d2 + n2 * d1 ∧ n1 * d2 + n2 * d1 ≤ INT_MAX)
    (hd : -INT_MAX ≤ d1 * d2 ∧ d1 * d2 ≤ INT_MAX) :
    ∃ n d, Machine.operatorPlus (n1, d1) (n2, d2) = some (n, d) ∧ d ≠ 0 ∧
      n * (d1 * d2) = (n1 * d2 + n2 * d1) * d ∧ Nat.gcd n.natAbs d.natAbs = 1 := by
  have hden : d1 * d2 ≠ 0 := mul_ne_zero h1 h2
  have hg0 := gcd_ne_zero_of_right (n1 * d2 + n2 * d1) (d1 * d2) hden
  have hn := Int.tdiv_mul_cancel (gcd_dvd_left (n1 * d2 + n2 * d1) (d1 * d2))
  have hdd := Int.tdiv_mul_cancel (gcd_dvd_right (n1 * d2 + n2 * d1) (d1 * d2))
  have hg := natAbs_gcd (n1 * d2 + n2 * d1) (d1 * d2)
  refine ⟨_, _, machine_operatorPlus_eq n1 d1 n2 d2 h1 h2 hp1 hp2 hs hd, ?_, ?_, ?_⟩
  · intro h0
    rw [h0, zero_mul] at hdd
    exact hden hdd.symm
  · generalize gcd (n1 * d2 + n2 * d1) (d1 * d2) = g at hn hdd
    generalize Int.tdiv (n1 * d2 + n2 * d1) g = n at hn hdd
    generalize Int.tdiv (d1 * d2) g = d at hn hdd
    rw [← hn, ← hdd]; ring
  · generalize gcd (n1 * d2 + n2 * d1) (d1 * d2) = g at hn hdd hg hg0
    generalize Int.tdiv (n1 * d2 + n2 * d1) g = n at hn hdd
    generalize Int.tdiv (d1 * d2) g = d at hn hdd
    rw [← hn, ← hdd, Int.natAbs_mul, Int.natAbs_mul, Nat.gcd_mul_right] at hg
    have hpos : 0 < g.natAbs := Int.natAbs_pos.mpr hg0
    have : Nat.gcd n.natAbs d.natAbs * g.natAbs = 1 * g.natAbs := by
      rw [one_mul]; exact hg.symm
    exact Nat.eq_of_mul_eq_mul_right hpos this

/-- The amended C2 at `1/2` and `1/4`: the sum is returned as `3/4`, not as `6/8`. -/
theorem machine_operatorPlus_lowest_terms_witness :
    (2 : Int) ≠ 0 ∧ (4 : Int) ≠ 0 ∧
      (-INT_MAX ≤ (1 : Int) * 4 ∧ (1 : Int) * 4 ≤ INT_MAX) ∧
      (-INT_MAX ≤ (1 : Int) * 2 ∧ (1 : Int) * 2 ≤ INT_MAX) ∧
      (-INT_MAX ≤ (1 : Int) * 4 + 1 * 2 ∧ (1 : Int) * 4 + 1 * 2 ≤ INT_MAX) ∧
      (-INT_MAX ≤ (2 : Int) * 4 ∧ (2 : Int) * 4 ≤ INT_MAX) ∧
      Machine.operatorPlus (1, 2) (1, 4) = some (3, 4) ∧
      ∃ n d, Machine.operatorPlus (1, 2) (1, 4) = some (n, d) ∧ d ≠ 0 ∧
        n * (2 * 4) = (1 * 4 + 1 * 2) * d ∧ Nat.gcd n.natAbs d.natAbs = 1 := by
  refine ⟨by decide, by decide, ⟨by decide, by decide⟩, ⟨by decide, by decide⟩,
    ⟨by decide, by decide⟩, ⟨by decide, by decide⟩, ?_,
    machine_operatorPlus_lowest_terms 1 2 1 4 (by decide) (by decide)
      ⟨by decide, by decide⟩ ⟨by decide, by decide⟩ ⟨by decide, by decide⟩
      ⟨by decide, by decide⟩⟩
  rw [machine_operatorPlus_eq 1 2 1 4 (by decide) (by decide)
    ⟨by decide, by decide⟩ ⟨by decide, by decide⟩ ⟨by decide, by decide⟩
    ⟨by decide, by decide⟩]
  have hg : gcd (1 * 4 + 1 * 2) (2 * 4) = 2 := by
    rw [gcd_step (1 * 4 + 1 * 2) (2 * 4) 6 (by decide) (by decide),
      gcd_step (2 * 4) 6 2 (by decide) (by decide), gcd_step 6 2 0 (by decide) (by decide),
      gcd_zero_right]
  rw [hg]; decide

/-! ## Theorems: `factorial` and `Add` -/

theorem factorial_of_le_one (n : Int) (h : n ≤ 1) : factorial n = 1 := by
  rw [factorial]; simp [h]

theorem factorial_of_one_lt (n : Int) (h : 1 < n) : factorial n = n * factorial (n - 1) := by
  rw [factorial]; simp [not_le.mpr h]

theorem factorial_natCast (n : Nat) : factorial (n : Int) = ((Nat.factorial n : Nat) : Int) := by
  induction n with
  | zero => rw [factorial_of_le_one _ (by simp)]; simp
  | succ k ih =>
    rcases Nat.eq_zero_or_pos k with hk | hk
    · subst hk; rw [factorial_of_le_one _ (by simp)]; simp
    · rw [factorial_of_one_lt _ (by push_cast; omega)]
      have : ((k + 1 : Nat) : Int) - 1 = (k : Int) := by push_cast; ring
      rw [this, ih, Nat.factorial_succ]; push_cast; ring

/-- C4: `factorial n` is `n!` for every `n ≥ 0`, and is `1` for every `n ≤ 1`, negative
`n` included. -/
theorem factorial_spec (n : Int) :
    (0 ≤ n → factorial n = ((Nat.factorial n.toNat : Nat) : Int)) ∧
      (n ≤ 1 → factorial n = 1) := by
  refine ⟨fun h => ?_, factorial_of_le_one n⟩
  have := factorial_natCast n.toNat
  rwa [Int.toNat_of_nonneg h] at this

/-- The value `factorial(7) = 5040` printed by `main`, and `factorial(-3) = 1`. -/
theorem factorial_spec_witness :
    (0 : Int) ≤ 7 ∧ factorial 7 = 5040 ∧ (-3 : Int) ≤ 1 ∧ factorial (-3) = 1 :=
  ⟨by decide, (factorial_spec 7).1 (by decide), by decide, (factorial_spec (-3)).2 (by decide)⟩

/-- C5: the pointer overload of `Add` returns no value exactly when one of the pointers
is null, and otherwise the sum of the pointees, the result of the reference overload. -/
theorem Add_ptr_spec (x y : Option Int) :
    (Add_ptr x y = none ↔ x = none ∨ y = none) ∧
      (∀ vx vy, x = some vx → y = some vy →
        Add_ptr x y = some (vx + vy) ∧ Add_ptr x y = some (Add_ref vx vy)) := by
  cases x <;> cases y <;> simp [Add_ptr, Add_ref]

/-- The calls `Add(&3, &3) = 6` and `Add(nullptr, &3) = nullopt` of `main`. -/
theorem Add_ptr_spec_witness :
    Add_ptr (some 3) (some 3) = some 6 ∧ Add_ptr none (some 3) = none :=
  ⟨((Add_ptr_spec (some 3) (some 3)).2 3 3 rfl rfl).1,
    (Add_ptr_spec none (some 3)).1.mpr (Or.inl rfl)⟩


/-! ## Theorems: depth-first traversals -/

theorem makeBinaryTree_eq :
    makeBinaryTree = .node 1 (.node 2 .null .null) (.node 3 (.node 4 .null .null) .null) := by
  rfl

theorem makeTree_eq :
    makeTree = .node 0 [.node 1 [.node 5 []], .node 2 [], .node 3 []] := by
  rfl

theorem dfsForBinaryTree_append (t : BinaryTreeNode) (out : List Int) :
    dfsForBinaryTree t out = out ++ dfsForBinaryTree t [] := by
  induction t generalizing out with
  | null => simp [dfsForBinaryTree]
  | node value left right ihl ihr =>
    simp only [dfsForBinaryTree]
    rw [ihr (dfsForBinaryTree left (out ++ [value])), ihl (out ++ [value]),
      ihr (dfsForBinaryTree left ([] ++ [value])), ihl ([] ++ [value])]
    simp

theorem dfsForBinaryTree_node (value : Int) (left right : BinaryTreeNode) (out : List Int) :
    dfsForBinaryTree (.node value left right) out
      = out ++ [value] ++ dfsForBinaryTree left [] ++ dfsForBinaryTree right [] := by
  simp only [dfsForBinaryTree]
  rw [dfsForBinaryTree_append right, dfsForBinaryTree_append left]

theorem dfsForBinaryTree_length (t : BinaryTreeNode) :
    (dfsForBinaryTree t []).length = t.size := by
  induction t with
  | null => simp [dfsForBinaryTree, BinaryTreeNode.size]
  | node value left right ihl ihr =>
    rw [dfsForBinaryTree_node]
    simp [BinaryTreeNode.size, ihl, ihr]
    omega

mutual
theorem dfsForTree_append : ∀ (t : TreeNode) (out : List Int),
    dfsForTree t out = out ++ dfsForTree t []
  | .null, out => by simp [dfsForTree]
  | .node value children, out => by
    simp only [dfsForTree]
    rw [dfsForTree_loop_append children (out ++ [value]),
      dfsForTree_loop_append children ([] ++ [value])]
    simp
theorem dfsForTree_loop_append : ∀ (cs : List TreeNode) (out : List Int),
    dfsForTree.loop cs out = out ++ dfsForTree.loop cs []
  | [], out => by simp [dfsForTree.loop]
  | child :: rest, out => by
    simp only [dfsForTree.loop]
    rw [dfsForTree_loop_append rest (dfsForTree child out), dfsForTree_append child out,
      dfsForTree_loop_append rest (dfsForTree child [])]
    simp
end

theorem dfsForTree_loop_eq (cs : List TreeNode) :
    dfsForTree.loop cs [] = (cs.map (fun child => dfsForTree child [])).flatten := by
  induction cs with
  | nil => simp [dfsForTree.loop]
  | cons child rest ih =>
    simp only [dfsForTree.loop, List.map_cons, List.flatten_cons]
    rw [dfsForTree_loop_append, ih]

theorem dfsForTree_node (value : Int) (children : List TreeNode) (out : List Int) :
    dfsForTree (.node value children) out
      = out ++ [value] ++ (children.map (fun child => dfsForTree child [])).flatten := by
  simp only [dfsForTree]
  rw [dfsForTree_loop_append, dfsForTree_loop_eq]

mutual
theorem dfsForTree_length : ∀ (t : TreeNode), (dfsForTree t []).length = t.size
  | .null => by simp [dfsForTree, TreeNode.size]
  | .node value children => by
    simp only [dfsForTree, TreeNode.size]
    rw [dfsForTree_loop_append, List.length_append, dfsForTree_loop_length children]
    simp
theorem dfsForTree_loop_length : ∀ (cs : List TreeNode),
    (dfsForTree.loop cs []).length = TreeNode.sizeList cs
  | [] => by simp [dfsForTree.loop, TreeNode.sizeList]
  | child :: rest => by
    simp only [dfsForTree.loop, TreeNode.sizeList]
    rw [dfsForTree_loop_append, List.length_append, dfsForTree_length child,
      dfsForTree_loop_length rest]
end

/-- C7: `dfsForBinaryTree` and `dfsForTree` are pre-order traversals.  A call on a null
pointer prints nothing; a call on a node prints, after what was printed before, the value
of the node, then all that the call on its first child prints, then all that the call on
the next child prints, and so on; the number of values printed is the number of nodes.
The tree of `makeTree` prints `0 1 5 2 3`, the tree of `makeBinaryTree` prints `1 2 3 4`. -/
theorem dfs_preorder :
    (∀ out, dfsForBinaryTree .null out = out) ∧
    (∀ value left right out, dfsForBinaryTree (.node value left right) out
      = out ++ [value] ++ dfsForBinaryTree left [] ++ dfsForBinaryTree right []) ∧
    (∀ t, (dfsForBinaryTree t []).length = t.size) ∧
    (∀ out, dfsForTree .null out = out) ∧
    (∀ value children out, dfsForTree (.node value children) out
      = out ++ [value] ++ (children.map (fun child => dfsForTree child [])).flatten) ∧
    (∀ t, (dfsForTree t []).length = t.size) ∧
    dfsForTree makeTree [] = [0, 1, 5, 2, 3] ∧
    dfsForBinaryTree makeBinaryTree [] = [1, 2, 3, 4] :=
  ⟨fun _ => by simp [dfsForBinaryTree], dfsForBinaryTree_node, dfsForBinaryTree_length,
    fun _ => by simp [dfsForTree], dfsForTree_node, dfsForTree_length, by decide, by decide⟩

/-! ## Theorems: breadth-first traversal -/

theorem bfs_loop_nil (out : List Int) : bfsForBinaryTree.loop [] out = some out := by
  rw [bfsForBinaryTree.loop]

theorem bfs_loop_cons (value : Int) (left right : BinaryTreeNode) (q : List BinaryTreeNode)
    (out : List Int) :
    bfsForBinaryTree.loop (.node value left right :: q) out
      = bfsForBinaryTree.loop (q ++ left.pushed ++ right.pushed) (out ++ [value]) := by
  rw [bfsForBinaryTree.loop]
  cases hl : left.isNull <;> cases hr : right.isNull <;> simp [BinaryTreeNode.pushed, hl, hr]

theorem levelOfQueue_pushed (t : BinaryTreeNode) (d : Nat) :
    BinaryTreeNode.levelOfQueue t.pushed d = t.valuesAtDepth d := by
  cases t <;>
    simp [BinaryTreeNode.levelOfQueue, BinaryTreeNode.pushed, BinaryTreeNode.isNull,
      BinaryTreeNode.valuesAtDepth]

theorem levelOfQueue_append (q c : List BinaryTreeNode) (d : Nat) :
    BinaryTreeNode.levelOfQueue (q ++ c) d
      = BinaryTreeNode.levelOfQueue q d ++ BinaryTreeNode.levelOfQueue c d := by
  simp [BinaryTreeNode.levelOfQueue]

theorem valuesOfQueue_pushed (t : BinaryTreeNode) :
    BinaryTreeNode.valuesOfQueue t.pushed = t.values := by
  cases t <;>
    simp [BinaryTreeNode.valuesOfQueue, BinaryTreeNode.pushed, BinaryTreeNode.isNull,
      BinaryTreeNode.values]

theorem valuesOfQueue_append (q c : List BinaryTreeNode) :
    BinaryTreeNode.valuesOfQueue (q ++ c)
      = BinaryTreeNode.valuesOfQueue q ++ BinaryTreeNode.valuesOfQueue c := by
  simp [BinaryTreeNode.valuesOfQueue]

theorem levelOfQueue_succ (q : List BinaryTreeNode) (d : Nat) :
    BinaryTreeNode.levelOfQueue q (d + 1)
      = BinaryTreeNode.levelOfQueue (BinaryTreeNode.childQueue q) d := by
  induction q with
  | nil => simp [BinaryTreeNode.levelOfQueue, BinaryTreeNode.childQueue]
  | cons t q ih =>
    cases t with
    | null =>
      simp only [BinaryTreeNode.childQueue, ← ih]
      simp [BinaryTreeNode.levelOfQueue, BinaryTreeNode.valuesAtDepth]
    | node value left right =>
      simp only [BinaryTreeNode.childQueue, levelOfQueue_append, levelOfQueue_pushed, ← ih]
      simp [BinaryTreeNode.levelOfQueue, BinaryTreeNode.valuesAtDepth]

theorem pushed_nonNull (t u : BinaryTreeNode) (hu : u ∈ t.pushed) :
    u.isNull = false ∧ u = t := by
  cases ht : t.isNull <;> simp [BinaryTreeNode.pushed, ht] at hu
  subst hu; exact ⟨ht, rfl⟩

theorem childQueue_spec (q : List BinaryTreeNode) (h : Nat)
    (hq : ∀ t ∈ q, t.height ≤ h + 1) :
    ∀ u ∈ BinaryTreeNode.childQueue q, u.isNull = false ∧ u.height ≤ h := by
  induction q with
  | nil => simp [BinaryTreeNode.childQueue]
  | cons t q ih =>
    have ih := ih (fun t ht => hq t (List.mem_cons_of_mem _ ht))
    cases t with
    | null => simpa [BinaryTreeNode.childQueue] using ih
    | node value left right =>
      have ht := hq _ (List.mem_cons_self _ _)
      simp only [BinaryTreeNode.height] at ht
      intro u hu
      simp only [BinaryTreeNode.childQueue, List.mem_append] at hu
      rcases hu with (hu | hu) | hu
      · obtain ⟨h1, rfl⟩ := pushed_nonNull _ _ hu
        exact ⟨h1, by omega⟩
      · obtain ⟨h1, rfl⟩ := pushed_nonNull _ _ hu
        exact ⟨h1, by omega⟩
      · exact ih u hu

/-- One level of the queue is consumed: the nodes of `q` are printed from the front on, and
the pointers they push line up behind the ones that were already waiting. -/
theorem bfs_loop_level (q : List BinaryTreeNode) (hq : ∀ t ∈ q, t.isNull = false)
    (c : List BinaryTreeNode) (out : List Int) :
    bfsForBinaryTree.loop (q ++ c) out
      = bfsForBinaryTree.loop (c ++ BinaryTreeNode.childQueue q)
          (out ++ BinaryTreeNode.levelOfQueue q 0) := by
  induction q generalizing c out with
  | nil => simp [BinaryTreeNode.childQueue, BinaryTreeNode.levelOfQueue]
  | cons t q ih =>
    have ih := ih (fun t ht => hq t (List.mem_cons_of_mem _ ht))
    cases t with
    | null => simpa [BinaryTreeNode.isNull] using hq _ (List.mem_cons_self _ _)
    | node value left right =>
      rw [List.cons_append, bfs_loop_cons, List.append_assoc, List.append_assoc, ih]
      simp [BinaryTreeNode.childQueue, BinaryTreeNode.levelOfQueue,
        BinaryTreeNode.valuesAtDepth]

theorem height_pos_of_nonNull (t : BinaryTreeNode) (h : t.isNull = false) : 0 < t.height := by
  cases t with
  | null => simp [BinaryTreeNode.isNull] at h
  | node value left right => simp [BinaryTreeNode.height]

theorem values_of_height_zero (t : BinaryTreeNode) (h : t.height = 0) : t.values = [] := by
  cases t with
  | null => rfl
  | node value left right => simp [BinaryTreeNode.height] at h

/-- The loop prints the levels of the queue one after the other. -/
theorem bfs_loop_levels (h : Nat) (q : List BinaryTreeNode)
    (hq : ∀ t ∈ q, t.isNull = false) (hh : ∀ t ∈ q, t.height ≤ h) (out : List Int) :
    bfsForBinaryTree.loop q out
      = some (out ++ ((List.range h).map (BinaryTreeNode.levelOfQueue q)).flatten) := by
  induction h generalizing q out with
  | zero =>
    cases q with
    | nil => simp [bfs_loop_nil]
    | cons t q =>
      have h1 := height_pos_of_nonNull t (hq t (List.mem_cons_self _ _))
      have h2 := hh t (List.mem_cons_self _ _)
      omega
  | succ h ih =>
    have hc := childQueue_spec q h hh
    have step := bfs_loop_level q hq [] out
    rw [List.append_nil, List.nil_append] at step
    rw [step, ih _ (fun u hu => (hc u hu).1) (fun u hu => (hc u hu).2)]
    rw [List.range_succ_eq_map]
    simp [List.map_map, Function.comp_def, levelOfQueue_succ]

theorem valuesOfQueue_perm (q : List BinaryTreeNode) :
    (BinaryTreeNode.levelOfQueue q 0
      ++ BinaryTreeNode.valuesOfQueue (BinaryTreeNode.childQueue q)).Perm
        (BinaryTreeNode.valuesOfQueue q) := by
  induction q with
  | nil =>
    simp [BinaryTreeNode.levelOfQueue, BinaryTreeNode.valuesOfQueue, BinaryTreeNode.childQueue]
  | cons t q ih =>
    cases t with
    | null =>
      simpa [BinaryTreeNode.levelOfQueue, BinaryTreeNode.valuesOfQueue,
        BinaryTreeNode.childQueue, BinaryTreeNode.valuesAtDepth, BinaryTreeNode.values] using ih
    | node value left right =>
      have e1 : BinaryTreeNode.levelOfQueue (BinaryTreeNode.node value left right :: q) 0
          = value :: BinaryTreeNode.levelOfQueue q 0 := by
        simp [BinaryTreeNode.levelOfQueue, BinaryTreeNode.valuesAtDepth]
      have e2 : BinaryTreeNode.valuesOfQueue (BinaryTreeNode.node value left right :: q)
          = value :: ((left.values ++ right.values) ++ BinaryTreeNode.valuesOfQueue q) := by
        simp [BinaryTreeNode.valuesOfQueue, BinaryTreeNode.values]
      rw [e1, e2]
      simp only [BinaryTreeNode.childQueue, valuesOfQueue_append, valuesOfQueue_pushed,
        List.cons_append]
      refine List.Perm.cons _ ?_
      exact (List.perm_append_comm_assoc _ _ _).trans (List.Perm.append_left _ ih)

theorem levels_perm_values (h : Nat) (q : List BinaryTreeNode) (hh : ∀ t ∈ q, t.height ≤ h) :
    (((List.range h).map (BinaryTreeNode.levelOfQueue q)).flatten).Perm
      (BinaryTreeNode.valuesOfQueue q) := by
  induction h generalizing q with
  | zero =>
    have : BinaryTreeNode.valuesOfQueue q = [] := by
      simp only [BinaryTreeNode.valuesOfQueue, List.flatten_eq_nil_iff, List.mem_map]
      rintro l ⟨t, ht, rfl⟩
      exact values_of_height_zero t (Nat.le_zero.mp (hh t ht))
    simp [this]
  | succ h ih =>
    have hc := childQueue_spec q h hh
    have ih := ih (BinaryTreeNode.childQueue q) (fun u hu => (hc u hu).2)
    rw [List.range_succ_eq_map]
    simp only [List.map_cons, List.flatten_cons, List.map_map, Function.comp_def,
      levelOfQueue_succ]
    exact (List.Perm.append_left _ ih).trans (valuesOfQueue_perm q)

/-- C6: `bfsForBinaryTree` is a breadth-first traversal.  On every binary tree it returns
(no null pointer is dereferenced), and what it prints after the earlier output is the
level order of the tree: the values at depth `0`, then those at depth `1`, and so on, each
level from left to right; this is a rearrangement of the values of the nodes, one entry for
each node.  The tree of `makeBinaryTree` prints `1 2 3 4`. -/
theorem bfs_level_order :
    (∀ root out, ∃ printed, bfsForBinaryTree root out = some (out ++ printed) ∧
      printed = root.levelOrder ∧ printed.Perm root.values) ∧
    bfsForBinaryTree makeBinaryTree [] = some [1, 2, 3, 4] := by
  have main : ∀ root out, ∃ printed, bfsForBinaryTree root out = some (out ++ printed) ∧
      printed = ((List.range root.height).map root.valuesAtDepth).flatten ∧
      printed.Perm root.values := by
    intro root out
    have e : BinaryTreeNode.levelOfQueue [root] = root.valuesAtDepth := by
      funext d; simp [BinaryTreeNode.levelOfQueue]
    refine ⟨_, ?_, rfl, ?_⟩
    · cases hroot : root.isNull with
      | true =>
        cases root with
        | null => simp [bfsForBinaryTree, BinaryTreeNode.isNull, BinaryTreeNode.height]
        | node value left right => simp [BinaryTreeNode.isNull] at hroot
      | false =>
        have h := bfs_loop_levels root.height [root] (by simpa using hroot) (by simp) out
        simpa [bfsForBinaryTree, hroot, e] using h
    · have h := levels_perm_values root.height [root] (by simp)
      simpa [e, BinaryTreeNode.valuesOfQueue] using h
  refine ⟨main, ?_⟩
  obtain ⟨printed, h1, h2, _⟩ := main makeBinaryTree []
  rw [h1, h2]
  decide

/-! ## Theorems: `std::sort` in the vector program -/

theorem strictWeakOrdering_lt : StrictWeakOrdering (fun a b : Int => decide (a < b)) := by
  refine ⟨?_, ?_, ?_⟩
  · intro a; simp
  · intro a b c h1 h2
    simp only [decide_eq_true_eq] at h1 h2 ⊢
    omega
  · intro a b c h1 h2 h3 h4
    simp only [decide_eq_false_iff_not] at h1 h2 h3 h4 ⊢
    omega

theorem strictWeakOrdering_gt : StrictWeakOrdering (fun a b : Int => decide (a > b)) := by
  refine ⟨?_, ?_, ?_⟩
  · intro a; simp
  · intro a b c h1 h2
    simp only [gt_iff_lt, decide_eq_true_eq] at h1 h2 ⊢
    omega
  · intro a b c h1 h2 h3 h4
    simp only [gt_iff_lt, decide_eq_false_iff_not] at h1 h2 h3 h4 ⊢
    omega

theorem stdSort_insert_perm (comp : Int → Int → Bool) (value : Int) (l : List Int) :
    (stdSort.insert comp value l).Perm (value :: l) := by
  induction l with
  | nil => exact List.Perm.refl _
  | cons x rest ih =>
    simp only [stdSort.insert]
    split
    · exact List.Perm.refl _
    · exact (List.Perm.cons x ih).trans (List.Perm.swap value x rest)

theorem stdSort_perm (comp : Int → Int → Bool) (vec : List Int) :
    (stdSort comp vec).Perm vec := by
  induction vec with
  | nil => exact List.Perm.refl _
  | cons x rest ih =>
    simp only [stdSort]
    exact (stdSort_insert_perm comp x _).trans (List.Perm.cons x ih)

theorem stdSort_insert_sorted (comp : Int → Int → Bool) (hcomp : StrictWeakOrdering comp)
    (value : Int) (l : List Int) (hl : l.Pairwise (fun a b => comp b a = false)) :
    (stdSort.insert comp value l).Pairwise (fun a b => comp b a = false) := by
  obtain ⟨hirr, htr, _⟩ := hcomp
  induction l with
  | nil => simp [stdSort.insert]
  | cons x rest ih =>
    rw [List.pairwise_cons] at hl
    obtain ⟨hx, hrest⟩ := hl
    simp only [stdSort.insert]
    split
    · rename_i hvx
      rw [List.pairwise_cons]
      refine ⟨?_, List.pairwise_cons.mpr ⟨hx, hrest⟩⟩
      intro y hy
      cases hyv : comp y value with
      | false => rfl
      | true =>
        have hyx := htr y value x hyv hvx
        rcases List.mem_cons.mp hy with rfl | hy'
        · rw [hirr y] at hyx; cases hyx
        · rw [hx y hy'] at hyx; cases hyx
    · rename_i hvx
      rw [List.pairwise_cons]
      refine ⟨?_, ih hrest⟩
      intro y hy
      rcases List.mem_cons.mp ((stdSort_insert_perm comp value rest).subset hy) with rfl | hy'
      · simpa using hvx
      · exact hx y hy'

theorem stdSort_sorted (comp : Int → Int → Bool) (hcomp : StrictWeakOrdering comp)
    (vec : List Int) : (stdSort comp vec).Pairwise (fun a b => comp b a = false) := by
  induction vec with
  | nil => simp [stdSort]
  | cons x rest ih =>
    simp only [stdSort]
    exact stdSort_insert_sorted comp hcomp x _ ih

/-- The model meets the guarantee of the standard on `std::sort`. -/
theorem stdSort_contract : StdSortContract stdSort :=
  fun comp vec hcomp => ⟨stdSort_perm comp vec, stdSort_sorted comp hcomp vec⟩

theorem stdSort_lt_sorted (vec : List Int) :
    (stdSort (fun a b => decide (a < b)) vec).Sorted (fun a b => a ≤ b) := by
  refine List.Pairwise.imp ?_ (stdSort_sorted _ strictWeakOrdering_lt vec)
  intro a b h
  simp only [decide_eq_false_iff_not] at h
  omega

theorem stdSort_gt_sorted (vec : List Int) :
    (stdSort (fun a b => decide (a > b)) vec).Sorted (fun a b => a ≥ b) := by
  refine List.Pairwise.imp ?_ (stdSort_sorted _ strictWeakOrdering_gt vec)
  intro a b h
  simp only [gt_iff_lt, decide_eq_false_iff_not] at h
  omega

/-- On a vector of `int`, every `std::sort` that meets the guarantee of the standard
returns, for `<`, what the model returns. -/
theorem stdSort_unique_lt (sort : (Int → Int → Bool) → List Int → List Int)
    (hsort : StdSortContract sort) (vec : List Int) :
    sort (fun a b => decide (a < b)) vec = stdSort (fun a b => decide (a < b)) vec := by
  obtain ⟨hp, hs⟩ := hsort (fun a b => decide (a < b)) vec strictWeakOrdering_lt
  have hs' : (sort (fun a b => decide (a < b)) vec).Sorted (fun a b => a ≤ b) := by
    refine List.Pairwise.imp ?_ hs
    intro a b h
    simp only [decide_eq_false_iff_not] at h
    omega
  exact List.eq_of_perm_of_sorted (hp.trans (stdSort_perm _ vec).symm) hs'
    (stdSort_lt_sorted vec)

/-- On a vector of `int`, every `std::sort` that meets the guarantee of the standard
returns, for `>`, what the model returns. -/
theorem stdSort_unique_gt (sort : (Int → Int → Bool) → List Int → List Int)
    (hsort : StdSortContract sort) (vec : List Int) :
    sort (fun a b => decide (a > b)) vec = stdSort (fun a b => decide (a > b)) vec := by
  obtain ⟨hp, hs⟩ := hsort (fun a b => decide (a > b)) vec strictWeakOrdering_gt
  have hs' : (sort (fun a b => decide (a > b)) vec).Sorted (fun a b => a ≥ b) := by
    refine List.Pairwise.imp ?_ hs
    intro a b h
    simp only [gt_iff_lt, decide_eq_false_iff_not] at h
    omega
  exact List.eq_of_perm_of_sorted (hp.trans (stdSort_perm _ vec).symm) hs'
    (stdSort_gt_sorted vec)

/-- C8: section 5.1 of `sortingAndOrderingAlgorithms` prints `[5, 3, 8, 3, 1, 2, 7, 4, 6]`,
then `[1, 2, 3, 3, 4, 5, 6, 7, 8]` after the ascending sort, then
`[8, 7, 6, 5, 4, 3, 3, 2, 1]` after the descending sort; and run on any vector, the section
prints the vector, then a non-decreasing rearrangement of it (every value as often as in
the vector) after the ascending sort, then a non-increasing rearrangement of it after the
descending sort. -/
theorem sortingAndOrderingAlgorithms_spec :
    sortingAndOrderingAlgorithms []
      = [("Initial vector", [5, 3, 8, 3, 1, 2, 7, 4, 6]),
         ("Modified vector", [1, 2, 3, 3, 4, 5, 6, 7, 8]),
         ("Modified vector", [8, 7, 6, 5, 4, 3, 3, 2, 1])] ∧
    ∀ vec : List Int, ∃ ascending descending : List Int,
      sortingAndOrderingAlgorithms.onVector vec []
        = [("Initial vector", vec), ("Modified vector", ascending),
           ("Modified vector", descending)] ∧
      ascending.Sorted (fun a b => a ≤ b) ∧ ascending.Perm vec ∧
      (∀ x : Int, ascending.count x = vec.count x) ∧
      descending.Sorted (fun a b => a ≥ b) ∧ descending.Perm vec := by
  refine ⟨by decide, ?_⟩
  intro vec
  refine ⟨stdSort (fun a b => decide (a < b)) vec,
    stdSort (fun a b => decide (a > b)) (stdSort (fun a b => decide (a < b)) vec),
    rfl, stdSort_lt_sorted vec, stdSort_perm _ vec, fun x => (stdSort_perm _ vec).count_eq x,
    stdSort_gt_sorted _, (stdSort_perm _ _).trans (stdSort_perm _ vec)⟩

/-! ## Theorems: `usePromiseAndFuture` -/

theorem not_ltZero_of_geZero (x : Double) (h : x.geZero = true) : x.ltZero = false := by
  cases x with
  | nan => rfl
  | negInf => simp [Double.geZero] at h
  | posInf => rfl
  | finite q =>
    simp only [Double.geZero, decide_eq_true_eq] at h
    simp only [Double.ltZero, decide_eq_false_iff_not, not_lt]
    exact h

/-- C9: for every input `x < 0` the producer leaves in the promise the `invalid_argument`
exception with the message `Negative input for computation!` and no value, and the consumer
then writes `Error during computation: ` followed by that message instead of a result; for
every `x >= 0` the producer leaves a value, the one `sqrt` returns, and no exception, and
the consumer writes the result. -/
theorem usePromiseAndFuture_spec (sqrt : Double → Double) (fmt : Double → String)
    (x : Double) :
    (x.ltZero = true →
      producer sqrt .notReady x
        = .ok (.exception (.invalid_argument "Negative input for computation!")) ∧
      (∀ v, producer sqrt .notReady x ≠ .ok (.value v)) ∧
      usePromiseAndFutureWith sqrt fmt x
        = [Line.cout "Consumer waiting for computation result ...",
           Line.cerr "Error during computation: Negative input for computation!"]) ∧
    (x.geZero = true →
      producer sqrt .notReady x = .ok (.value (sqrt x)) ∧
      (∀ e, producer sqrt .notReady x ≠ .ok (.exception e)) ∧
      usePromiseAndFutureWith sqrt fmt x
        = [Line.cout "Consumer waiting for computation result ...",
           Line.cout ("Computation result: " ++ fmt (sqrt x))]) := by
  constructor
  · intro h
    have hp : producer sqrt .notReady x
        = .ok (.exception (.invalid_argument "Negative input for computation!")) := by
      simp [producer, h, set_exception]
    refine ⟨hp, ?_, ?_⟩
    · intro v hv
      rw [hp] at hv
      cases hv
    · simp only [usePromiseAndFutureWith, hp, consumer, Exception.what]
      decide
  · intro h
    have h0 := not_ltZero_of_geZero x h
    have hp : producer sqrt .notReady x = .ok (.value (sqrt x)) := by
      simp [producer, h0, set_value]
    refine ⟨hp, ?_, ?_⟩
    · intro e he
      rw [hp] at he
      cases he
    · simp only [usePromiseAndFutureWith, hp, consumer]
      rfl

/-- The theorem of C9 at `x = -1`, where the error is reported, and at `x = 10`, the input
of `usePromiseAndFuture`, where the result is written. -/
theorem usePromiseAndFuture_spec_witness :
    (Double.finite (-1)).ltZero = true ∧
    usePromiseAndFutureWith id (fun _ => "") (.finite (-1))
      = [Line.cout "Consumer waiting for computation result ...",
         Line.cerr "Error during computation: Negative input for computation!"] ∧
    (Double.finite 10).geZero = true ∧
    usePromiseAndFuture id (fun _ => "")
      = [Line.cout "Consumer waiting for computation result ...",
         Line.cout ("Computation result: " ++ "")] :=
  ⟨by decide,
    ((usePromiseAndFuture_spec id (fun _ => "") (.finite (-1))).1 (by decide)).2.2,
    by decide,
    ((usePromiseAndFuture_spec id (fun _ => "") (.finite 10)).2 (by decide)).2.2⟩

/-! ## Theorems: `std::shuffle` and `std::sample` in the vector program -/

theorem useStaticCalls_fst (k : Nat) : (useStaticCalls k).1 = (k : Int) := by
  induction k with
  | zero => rfl
  | succ k ih =>
    simp only [useStaticCalls, useStatic]
    rw [ih]; push_cast; rfl

/-- C11: the static variable of `useStatic` keeps its value between calls: for every
`k ≥ 1` the `k`-th call of a program run prints `Static variable: k`, after the lines of
the calls before it. -/
theorem useStatic_kth_call (k : Nat) (hk : 1 ≤ k) :
    (useStaticCalls k).2 = (useStaticCalls (k - 1)).2 ++ [("Static variable: ", (k : Int))] := by
  obtain ⟨n, rfl⟩ : ∃ n, k = n + 1 := ⟨k - 1, by omega⟩
  have h := useStaticCalls_fst n
  simp only [useStaticCalls, useStatic, Nat.add_sub_cancel]
  rw [h]; push_cast; rfl

/-- The two calls of `main` print `Static variable: 1` and then `Static variable: 2`. -/
theorem useStatic_kth_call_witness :
    1 ≤ 2 ∧ (useStaticCalls 1).2 = [("Static variable: ", 1)] ∧
      (useStaticCalls 2).2 = [("Static variable: ", 1)] ++ [("Static variable: ", 2)] :=
  ⟨by decide, by decide, useStatic_kth_call 2 (by decide)⟩

theorem calculateSum_loop_done (count i : Int) (args : List Int) (total : Int)
    (h : count ≤ i) : calculateSum.loop count i args total = some total := by
  rw [calculateSum.loop.eq_def, if_neg (by omega)]

theorem calculateSum_loop_cons (count i : Int) (arg : Int) (args : List Int) (total : Int)
    (h : i < count) :
    calculateSum.loop count i (arg :: args) total
      = calculateSum.loop count (i + 1) args (total + arg) := by
  rw [calculateSum.loop.eq_def, if_pos h]

theorem calculateSum_loop_sum (args : List Int) (count i total : Int)
    (h : i + args.length = count) :
    calculateSum.loop count i args total = some (total + args.sum) := by
  induction args generalizing i total with
  | nil =>
    rw [calculateSum_loop_done count i [] total (by simp at h; omega)]
    simp
  | cons arg args ih =>
    rw [calculateSum_loop_cons count i arg args total (by simp at h; omega),
      ih (i + 1) (total + arg) (by simp at h; omega)]
    simp [add_assoc]

/-- C12: `calculateSum(count, a_1, ..., a_count)` returns `a_1 + ... + a_count` when
`count ≥ 0` and exactly `count` arguments follow, and returns `0` when `count ≤ 0`. -/
theorem calculateSum_spec (count : Int) (args : List Int) :
    (0 ≤ count → (args.length : Int) = count → calculateSum count args = some args.sum) ∧
      (count ≤ 0 → calculateSum count args = some 0) := by
  constructor
  · intro _ hlen
    have h := calculateSum_loop_sum args count 0 0 (by omega)
    simpa [calculateSum] using h
  · intro h
    exact calculateSum_loop_done count 0 args 0 h

/-- The call `calculateSum(3, 1, 2, 3) = 6` of `main`, and a call with `count = 0`. -/
theorem calculateSum_spec_witness :
    (0 : Int) ≤ 3 ∧ (([1, 2, 3] : List Int).length : Int) = 3 ∧
      calculateSum 3 [1, 2, 3] = some 6 ∧ (0 : Int) ≤ 0 ∧ calculateSum 0 [] = some 0 :=
  ⟨by decide, by decide, (calculateSum_spec 3 [1, 2, 3]).1 (by decide) (by decide),
    by decide, (calculateSum_spec 0 []).2 (by decide)⟩

/-! ## Theorems: `dynamicMemoryAllocationInCPlusPlus` -/

/-- C14, the code at the failing inputs.  When the first `new` throws, the run prints the
message and then reads five elements through `ptr` and deletes `ptr`, which was never
assigned.  When `new int *[numRows]` throws, the catch block reads `matrix[0]` and
`matrix[1]` through the null `matrix`.  When the `new` of row `1` throws, the catch block
deletes row `0` and then `matrix[1]`, which was never assigned.  When no `new` throws, no
step touches memory that was not allocated. -/
theorem dynamicMemoryAllocationInCPlusPlus_failure :
    (dynamicMemoryAllocationInCPlusPlus (fun n => decide (n ≠ 0))).take 3
      = [.message, .readElements .uninitialized 5, .deleteArray .uninitialized] ∧
    dynamicMemoryAllocationInCPlusPlus (fun n => decide (n ≠ 1))
      = [.allocated 0 5, .readElements (.block 0) 5, .deleteArray (.block 0), .message,
         .loadRow .null 0, .deleteArray .uninitialized,
         .loadRow .null 1, .deleteArray .uninitialized] ∧
    dynamicMemoryAllocationInCPlusPlus (fun n => decide (n ≠ 3))
      = [.allocated 0 5, .readElements (.block 0) 5, .deleteArray (.block 0),
         .allocated 1 2, .allocated 2 3, .storeRow (.block 1) 0, .message,
         .loadRow (.block 1) 0, .deleteArray (.block 2),
         .loadRow (.block 1) 1, .deleteArray .uninitialized] ∧
    (dynamicMemoryAllocationInCPlusPlus (fun _ => true)).all
      (fun e => !e.touchesUnallocated) = true := by
  refine ⟨by decide, by decide, by decide, by decide⟩

/-! ## Theorems: `useMutex` -/

theorem countThreads_update (g : WorkerPc → Nat) (pc : Fin 3 → WorkerPc) (k : Fin 3)
    (v : WorkerPc) :
    countThreads g (Function.update pc k v) + g (pc k) = countThreads g pc + g v := by
  fin_cases k <;> simp [countThreads, Function.update] <;> omega

theorem le_countThreads (g : WorkerPc → Nat) (pc : Fin 3 → WorkerPc) (k : Fin 3) :
    g (pc k) ≤ countThreads g pc := by
  fin_cases k <;> simp [countThreads] <;> omega

theorem add_le_countThreads (g : WorkerPc → Nat) (pc : Fin 3 → WorkerPc) (i j : Fin 3)
    (h : i ≠ j) : g (pc i) + g (pc j) ≤ countThreads g pc := by
  fin_cases i <;> fin_cases j <;> simp [countThreads] at h ⊢ <;> omega

theorem countThreads_finished (g : WorkerPc → Nat) (pc : Fin 3 → WorkerPc)
    (h : ∀ k, pc k = .finished) : countThreads g pc = 3 * g .finished := by
  simp [countThreads, h]; omega

theorem valueLines_append (a b : List MutexLine) :
    valueLines (a ++ b) = valueLines a ++ valueLines b := by
  induction a with
  | nil => rfl
  | cons line a ih => cases line <;> simp [valueLines, ih]

theorem printed_le_wrote (pc : WorkerPc) : pc.printed ≤ pc.wrote := by
  cases pc <;> simp [WorkerPc.printed, WorkerPc.wrote]

theorem wrote_le_printed_add_holds (pc : WorkerPc) : pc.wrote ≤ pc.printed + pc.holds := by
  cases pc <;> simp [WorkerPc.printed, WorkerPc.wrote, WorkerPc.holds,
    WorkerPc.inCriticalSection]

theorem mutexInv_init : MutexInv MutexState.init where
  held := by simp [MutexState.init, countThreads, WorkerPc.holds, WorkerPc.inCriticalSection]
  shared := by simp [MutexState.init, countThreads, WorkerPc.wrote]
  values := by simp [MutexState.init, countThreads, WorkerPc.printed, valueLines]
  tmp := by simp [MutexState.init]
  nodup := by simp [MutexState.init, valueLines]
  mem := by simp [MutexState.init, valueLines, WorkerPc.printed]
  main := by simp [MutexState.init, MainOk]

theorem countThreads_update_of_eq (g : WorkerPc → Nat) (pc : Fin 3 → WorkerPc) (k : Fin 3)
    (v : WorkerPc) (h : g v = g (pc k)) :
    countThreads g (Function.update pc k v) = countThreads g pc := by
  have := countThreads_update g pc k v
  omega

theorem mainOk_update (main : MainPc) (pc : Fin 3 → WorkerPc) (out out' : List MutexLine)
    (k : Fin 3) (v : WorkerPc) (h : MainOk main pc out) (h1 : pc k ≠ .notCreated)
    (h2 : pc k ≠ .finished) : MainOk main (Function.update pc k v) out' := by
  have hne : ∀ j : Fin 3, (pc j = .notCreated ∨ pc j = .finished) → j ≠ k := by
    rintro j hj rfl
    rcases hj with hj | hj
    · exact h1 hj
    · exact h2 hj
  cases main with
  | atInitial =>
    intro j
    rw [Function.update_noteq (hne j (Or.inl (h j)))]; exact h j
  | atSpawn i =>
    intro j hj
    rw [Function.update_noteq (hne j (Or.inl (h j hj)))]; exact h j hj
  | atJoin i =>
    intro j hj
    rw [Function.update_noteq (hne j (Or.inr (h j hj)))]; exact h j hj
  | atFinal =>
    intro j
    rw [Function.update_noteq (hne j (Or.inr (h j)))]; exact h j
  | finished => exact absurd (h.1 k) h2

theorem mem_update (pc : Fin 3 → WorkerPc) (k : Fin 3) (v : WorkerPc)
    (hg : v.printed = (pc k).printed) (l : List (Fin 3))
    (h : ∀ j, j ∈ l ↔ (pc j).printed = 1) :
    ∀ j, j ∈ l ↔ (Function.update pc k v j).printed = 1 := by
  intro j
  by_cases hj : j = k
  · subst hj; rw [Function.update_same, hg]; exact h j
  · rw [Function.update_noteq hj]; exact h j

theorem tmp_update (pc : Fin 3 → WorkerPc) (tmp : Fin 3 → Int) (shared : Int) (k : Fin 3)
    (v : WorkerPc) (hv : v ≠ .atWrite) (h : ∀ j, pc j = .atWrite → tmp j = shared) :
    ∀ j, Function.update pc k v j = .atWrite → tmp j = shared := by
  intro j
  by_cases hj : j = k
  · subst hj; rw [Function.update_same]; intro hw; exact absurd hw hv
  · rw [Function.update_noteq hj]; exact h j

theorem wrote_eq_printed_add_one (pc : Fin 3 → WorkerPc) (k : Fin 3) (hk : pc k = .atPrint)
    (hheld : countThreads WorkerPc.holds pc ≤ 1) :
    countThreads WorkerPc.wrote pc = countThreads WorkerPc.printed pc + 1 := by
  have key : ∀ j : Fin 3, j ≠ k → (pc j).wrote = (pc j).printed := by
    intro j hj
    have h1 := add_le_countThreads WorkerPc.holds pc j k hj
    have h2 : (pc k).holds = 1 := by rw [hk]; rfl
    have h3 := wrote_le_printed_add_holds (pc j)
    have h4 := printed_le_wrote (pc j)
    omega
  have hkw : (pc k).wrote = 1 := by rw [hk]; rfl
  have hkp : (pc k).printed = 0 := by rw [hk]; rfl
  fin_cases k
  · have a := key 1 (by decide); have b := key 2 (by decide)
    simp only [countThreads] at *; simp at hkw hkp; omega
  · have a := key 0 (by decide); have b := key 2 (by decide)
    simp only [countThreads] at *; simp at hkw hkp; omega
  · have a := key 0 (by decide); have b := key 1 (by decide)
    simp only [countThreads] at *; simp at hkw hkp; omega

/-- A step of the main thread keeps the invariant. -/
theorem stepMain_inv (s s' : MutexState) (h : MutexInv s) (hs : stepMain s = some s') :
    MutexInv s' := by
  have hmain := h.main
  unfold stepMain at hs
  split at hs
  · rename_i hm
    rw [hm] at hmain
    cases hs
    exact {
      held := h.held
      shared := h.shared
      values := by simpa [valueLines_append, valueLines] using h.values
      tmp := h.tmp
      nodup := by simpa [valueLines_append, valueLines] using h.nodup
      mem := by simpa [valueLines_append, valueLines] using h.mem
      main := by
        intro k _
        exact hmain k }
  · rename_i i hm
    rw [hm] at hmain
    split at hs
    · rename_i hi
      cases hs
      have hold : s.pc ⟨i, hi⟩ = .notCreated := hmain ⟨i, hi⟩ (Nat.le_refl i)
      exact {
        held := by
          show countThreads _ (Function.update s.pc ⟨i, hi⟩ .atLock) = _
          rw [countThreads_update_of_eq _ _ _ _ (by rw [hold]; rfl)]; exact h.held
        shared := by
          show _ = ((countThreads _ (Function.update s.pc ⟨i, hi⟩ .atLock) : Nat) : Int)
          rw [countThreads_update_of_eq _ _ _ _ (by rw [hold]; rfl)]; exact h.shared
        values := by
          show _ = (List.range' 1
            (countThreads _ (Function.update s.pc ⟨i, hi⟩ .atLock))).map Int.ofNat
          rw [countThreads_update_of_eq _ _ _ _ (by rw [hold]; rfl)]; exact h.values
        tmp := tmp_update s.pc s.tmp s.sharedResource ⟨i, hi⟩ .atLock (by decide) h.tmp
        nodup := h.nodup
        mem := mem_update s.pc ⟨i, hi⟩ .atLock (by rw [hold]; rfl) _ h.mem
        main := by
          intro k hk
          have hne : k ≠ ⟨i, hi⟩ := by
            intro hki; rw [hki] at hk; simp at hk
          show Function.update s.pc ⟨i, hi⟩ .atLock k = _
          rw [Function.update_noteq hne]
          exact hmain k (by omega) }
    · rename_i hi
      cases hs
      exact {
        held := h.held
        shared := h.shared
        values := h.values
        tmp := h.tmp
        nodup := h.nodup
        mem := h.mem
        main := by
          intro k hk
          exact absurd hk (Nat.not_lt_zero _) }
  · rename_i i hm
    rw [hm] at hmain
    split at hs
    · rename_i hi
      split at hs
      · rename_i hfin
        cases hs
        exact {
          held := h.held
          shared := h.shared
          values := h.values
          tmp := h.tmp
          nodup := h.nodup
          mem := h.mem
          main := by
            intro k hk
            by_cases hki : k.val < i
            · exact hmain k hki
            · have : k = ⟨i, hi⟩ := Fin.ext (by simp; omega)
              rw [this]; exact hfin }
      · cases hs
    · rename_i hi
      cases hs
      exact {
        held := h.held
        shared := h.shared
        values := h.values
        tmp := h.tmp
        nodup := h.nodup
        mem := h.mem
        main := by
          intro k
          exact hmain k (by have := k.isLt; omega) }
  · rename_i hm
    rw [hm] at hmain
    cases hs
    have hshared : s.sharedResource = 3 := by
      rw [h.shared, countThreads_finished _ _ hmain]; rfl
    exact {
      held := h.held
      shared := h.shared
      values := by simpa [valueLines_append, valueLines] using h.values
      tmp := h.tmp
      nodup := by simpa [valueLines_append, valueLines] using h.nodup
      mem := by simpa [valueLines_append, valueLines] using h.mem
      main := ⟨hmain, by simp [hshared]⟩ }
  · cases hs

/-- A step of one of the three threads keeps the invariant. -/
theorem stepWorker_inv (s s' : MutexState) (k : Fin 3) (h : MutexInv s)
    (hs : stepWorker s k = some s') : MutexInv s' := by
  unfold stepWorker at hs
  split at hs
  · cases hs
  · -- `mtx.lock()`
    rename_i hpc
    split at hs
    · rename_i hfree
      cases hs
      have hheld := h.held
      rw [if_pos hfree] at hheld
      have hupd := countThreads_update WorkerPc.holds s.pc k .atAnnounce
      rw [hpc] at hupd
      exact {
        held := by
          show countThreads _ (Function.update s.pc k .atAnnounce) = _
          simp only [WorkerPc.holds, WorkerPc.inCriticalSection] at hupd ⊢
          simp at hupd ⊢
          omega
        shared := by
          show _ = ((countThreads _ (Function.update s.pc k .atAnnounce) : Nat) : Int)
          rw [countThreads_update_of_eq _ _ _ _ (by rw [hpc]; rfl)]; exact h.shared
        values := by
          show _ = (List.range' 1 (countThreads _ (Function.update s.pc k .atAnnounce))).map
            Int.ofNat
          rw [countThreads_update_of_eq _ _ _ _ (by rw [hpc]; rfl)]; exact h.values
        tmp := tmp_update s.pc s.tmp s.sharedResource k .atAnnounce (by decide) h.tmp
        nodup := h.nodup
        mem := mem_update s.pc k .atAnnounce (by rw [hpc]; rfl) _ h.mem
        main := mainOk_update _ _ _ _ k _ h.main (by rw [hpc]; decide) (by rw [hpc]; decide) }
    · cases hs
  · -- the output of `Thread id is modifying sharedResource`
    rename_i hpc
    cases hs
    exact {
      held := by
        show countThreads _ (Function.update s.pc k .atRead) = _
        rw [countThreads_update_of_eq _ _ _ _ (by rw [hpc]; rfl)]; exact h.held
      shared := by
        show _ = ((countThreads _ (Function.update s.pc k .atRead) : Nat) : Int)
        rw [countThreads_update_of_eq _ _ _ _ (by rw [hpc]; rfl)]; exact h.shared
      values := by
        show (valueLines (s.out ++ _)).map Prod.snd
          = (List.range' 1 (countThreads _ (Function.update s.pc k .atRead))).map Int.ofNat
        rw [countThreads_update_of_eq _ _ _ _ (by rw [hpc]; rfl)]
        simpa [valueLines_append, valueLines] using h.values
      tmp := tmp_update s.pc s.tmp s.sharedResource k .atRead (by decide) h.tmp
      nodup := by
        show ((valueLines (s.out ++ _)).map Prod.fst).Nodup
        simpa [valueLines_append, valueLines] using h.nodup
      mem := by
        have := mem_update s.pc k .atRead (by rw [hpc]; rfl) _ h.mem
        show ∀ j, j ∈ (valueLines (s.out ++ _)).map Prod.fst ↔ _
        simpa [valueLines_append, valueLines] using this
      main := mainOk_update _ _ _ _ k _ h.main (by rw [hpc]; decide) (by rw [hpc]; decide) }
  · -- the read of `sharedResource += 1`
    rename_i hpc
    cases hs
    exact {
      held := by
        show countThreads _ (Function.update s.pc k .atWrite) = _
        rw [countThreads_update_of_eq _ _ _ _ (by rw [hpc]; rfl)]; exact h.held
      shared := by
        show _ = ((countThreads _ (Function.update s.pc k .atWrite) : Nat) : Int)
        rw [countThreads_update_of_eq _ _ _ _ (by rw [hpc]; rfl)]; exact h.shared
      values := by
        show _ = (List.range' 1 (countThreads _ (Function.update s.pc k .atWrite))).map
          Int.ofNat
        rw [countThreads_update_of_eq _ _ _ _ (by rw [hpc]; rfl)]; exact h.values
      tmp := by
        intro j hj
        show Function.update s.tmp k s.sharedResource j = s.sharedResource
        by_cases hjk : j = k
        · subst hjk; rw [Function.update_same]
        · rw [Function.update_noteq hjk]
          have hj' : Function.update s.pc k .atWrite j = .atWrite := hj
          rw [Function.update_noteq hjk] at hj'
          exact h.tmp j hj'
      nodup := h.nodup
      mem := mem_update s.pc k .atWrite (by rw [hpc]; rfl) _ h.mem
      main := mainOk_update _ _ _ _ k _ h.main (by rw [hpc]; decide) (by rw [hpc]; decide) }
  · -- the write of `sharedResource += 1`
    rename_i hpc
    cases hs
    have hheld : countThreads WorkerPc.holds s.pc ≤ 1 := by
      have := h.held; split at this <;> omega
    have hupd := countThreads_update WorkerPc.wrote s.pc k .atPrint
    rw [hpc] at hupd
    exact {
      held := by
        show countThreads _ (Function.update s.pc k .atPrint) = _
        rw [countThreads_update_of_eq _ _ _ _ (by rw [hpc]; rfl)]; exact h.held
      shared := by
        show s.tmp k + 1 = ((countThreads _ (Function.update s.pc k .atPrint) : Nat) : Int)
        rw [h.tmp k hpc, h.shared]
        simp only [WorkerPc.wrote] at hupd
        omega
      values := by
        show _ = (List.range' 1 (countThreads _ (Function.update s.pc k .atPrint))).map
          Int.ofNat
        rw [countThreads_update_of_eq _ _ _ _ (by rw [hpc]; rfl)]; exact h.values
      tmp := by
        intro j hj
        have hj' : Function.update s.pc k .atPrint j = .atWrite := hj
        by_cases hjk : j = k
        · subst hjk; rw [Function.update_same] at hj'; cases hj'
        · rw [Function.update_noteq hjk] at hj'
          have h1 := add_le_countThreads WorkerPc.holds s.pc j k hjk
          rw [hj', hpc] at h1
          simp [WorkerPc.holds, WorkerPc.inCriticalSection] at h1
          omega
      nodup := h.nodup
      mem := mem_update s.pc k .atPrint (by rw [hpc]; rfl) _ h.mem
      main := mainOk_update _ _ _ _ k _ h.main (by rw [hpc]; decide) (by rw [hpc]; decide) }
  · -- the output of `sharedResource value:`
    rename_i hpc
    cases hs
    have hheld : countThreads WorkerPc.holds s.pc ≤ 1 := by
      have := h.held; split at this <;> omega
    have hw := wrote_eq_printed_add_one s.pc k hpc hheld
    have hupd := countThreads_update WorkerPc.printed s.pc k .atUnlock
    rw [hpc] at hupd
    simp only [WorkerPc.printed] at hupd
    have hnot : k ∉ (valueLines s.out).map Prod.fst := by
      rw [h.mem k, hpc]; decide
    exact {
      held := by
        show countThreads _ (Function.update s.pc k .atUnlock) = _
        rw [countThreads_update_of_eq _ _ _ _ (by rw [hpc]; rfl)]; exact h.held
      shared := by
        show _ = ((countThreads _ (Function.update s.pc k .atUnlock) : Nat) : Int)
        rw [countThreads_update_of_eq _ _ _ _ (by rw [hpc]; rfl)]; exact h.shared
      values := by
        show (valueLines (s.out ++ [.value k s.sharedResource])).map Prod.snd
          = (List.range' 1 (countThreads _ (Function.update s.pc k .atUnlock))).map Int.ofNat
        have e : countThreads WorkerPc.printed (Function.update s.pc k .atUnlock)
            = countThreads WorkerPc.printed s.pc + 1 := by omega
        rw [e, List.range'_concat, List.map_append, valueLines_append, List.map_append,
          h.values]
        simp only [valueLines, List.map_cons, List.map_nil, List.append_cancel_left_eq,
          List.cons.injEq, and_true]
        rw [h.shared, hw, Int.ofNat_eq_coe]
        push_cast
        ring
      tmp := tmp_update s.pc s.tmp s.sharedResource k .atUnlock (by decide) h.tmp
      nodup := by
        show ((valueLines (s.out ++ [.value k s.sharedResource])).map Prod.fst).Nodup
        rw [valueLines_append, List.map_append]
        simp only [valueLines, List.map_cons, List.map_nil]
        refine List.Nodup.append h.nodup (List.nodup_singleton k) ?_
        intro a ha hak
        rw [List.mem_singleton] at hak
        subst hak
        exact hnot ha
      mem := by
        intro j
        show j ∈ (valueLines (s.out ++ [.value k s.sharedResource])).map Prod.fst
          ↔ (Function.update s.pc k .atUnlock j).printed = 1
        rw [valueLines_append, List.map_append]
        simp only [valueLines, List.map_cons, List.map_nil, List.mem_append,
          List.mem_singleton]
        by_cases hjk : j = k
        · subst hjk; rw [Function.update_same]; simp [WorkerPc.printed]
        · rw [Function.update_noteq hjk, h.mem j]; simp [hjk]
      main := mainOk_update _ _ _ _ k _ h.main (by rw [hpc]; decide) (by rw [hpc]; decide) }
  · -- `mtx.unlock()`
    rename_i hpc
    cases hs
    have hheld := h.held
    have hk := le_countThreads WorkerPc.holds s.pc k
    have hupd := countThreads_update WorkerPc.holds s.pc k .finished
    rw [hpc] at hupd hk
    simp [WorkerPc.holds, WorkerPc.inCriticalSection] at hupd hk
    exact {
      held := by
        show countThreads _ (Function.update s.pc k .finished)
          = if (none : Option (Fin 3)) = none then 0 else 1
        rw [if_pos rfl]
        split at hheld <;> omega
      shared := by
        show _ = ((countThreads _ (Function.update s.pc k .finished) : Nat) : Int)
        rw [countThreads_update_of_eq _ _ _ _ (by rw [hpc]; rfl)]; exact h.shared
      values := by
        show _ = (List.range' 1 (countThreads _ (Function.update s.pc k .finished))).map
          Int.ofNat
        rw [countThreads_update_of_eq _ _ _ _ (by rw [hpc]; rfl)]; exact h.values
      tmp := tmp_update s.pc s.tmp s.sharedResource k .finished (by decide) h.tmp
      nodup := h.nodup
      mem := mem_update s.pc k .finished (by rw [hpc]; rfl) _ h.mem
      main := mainOk_update _ _ _ _ k _ h.main (by rw [hpc]; decide) (by rw [hpc]; decide) }
  · cases hs

theorem mutexLive_init : MutexLive MutexState.init where
  owner := by simp [MutexState.init]
  created := by simp [MutexState.init]

theorem stepMain_live (s s' : MutexState) (hinv : MutexInv s) (h : MutexLive s)
    (hs : stepMain s = some s') : MutexLive s' := by
  have hmain := hinv.main
  unfold stepMain at hs
  split at hs
  · cases hs
    exact {
      owner := h.owner
      created := fun k _ => Or.inr ⟨0, rfl, Nat.zero_le _⟩ }
  · rename_i i hm
    split at hs
    · rename_i hi
      cases hs
      exact {
        owner := by
          intro k hk
          show (Function.update s.pc ⟨i, hi⟩ .atLock k).inCriticalSection = true
          have hc := h.owner k hk
          by_cases hki : k = ⟨i, hi⟩
          · subst hki
            rw [hm] at hmain
            rw [hmain ⟨i, hi⟩ (Nat.le_refl i)] at hc
            cases hc
          · rw [Function.update_noteq hki]; exact hc
        created := by
          intro k hk
          have hk' : Function.update s.pc ⟨i, hi⟩ .atLock k = .notCreated := hk
          have hki : k ≠ ⟨i, hi⟩ := by
            rintro rfl
            rw [Function.update_same] at hk'
            cases hk'
          rw [Function.update_noteq hki] at hk'
          rcases h.created k hk' with h0 | ⟨i', hi', hle⟩
          · rw [hm] at h0; cases h0
          · rw [hm] at hi'
            cases hi'
            refine Or.inr ⟨i + 1, rfl, ?_⟩
            have : k.val ≠ i := fun hv => hki (Fin.ext hv)
            omega }
    · rename_i hi
      cases hs
      exact {
        owner := h.owner
        created := by
          intro k hk
          rcases h.created k hk with h0 | ⟨i', hi', hle⟩
          · rw [hm] at h0; cases h0
          · rw [hm] at hi'
            cases hi'
            have := k.isLt
            omega }
  · rename_i i hm
    have hcr : ∀ k : Fin 3, s.pc k ≠ .notCreated := by
      intro k hk
      rcases h.created k hk with h0 | ⟨i', hi', _⟩
      · rw [hm] at h0; cases h0
      · rw [hm] at hi'; cases hi'
    split at hs
    · split at hs
      · cases hs
        exact { owner := h.owner, created := fun k hk => absurd hk (hcr k) }
      · cases hs
    · cases hs
      exact { owner := h.owner, created := fun k hk => absurd hk (hcr k) }
  · rename_i hm
    have hcr : ∀ k : Fin 3, s.pc k ≠ .notCreated := by
      intro k hk
      rcases h.created k hk with h0 | ⟨i', hi', _⟩
      · rw [hm] at h0; cases h0
      · rw [hm] at hi'; cases hi'
    cases hs
    exact { owner := h.owner, created := fun k hk => absurd hk (hcr k) }
  · cases hs

theorem owner_update (mtx : Option (Fin 3)) (pc : Fin 3 → WorkerPc) (k : Fin 3)
    (v : WorkerPc) (hv : v.inCriticalSection = true)
    (h : ∀ j, mtx = some j → (pc j).inCriticalSection = true) :
    ∀ j, mtx = some j → (Function.update pc k v j).inCriticalSection = true := by
  intro j hj
  by_cases hjk : j = k
  · subst hjk; rw [Function.update_same]; exact hv
  · rw [Function.update_noteq hjk]; exact h j hj

theorem created_update (main : MainPc) (pc : Fin 3 → WorkerPc) (k : Fin 3) (v : WorkerPc)
    (hv : v ≠ .notCreated)
    (h : ∀ j : Fin 3, pc j = .notCreated →
      main = .atInitial ∨ ∃ i, main = .atSpawn i ∧ i ≤ j.val) :
    ∀ j : Fin 3, Function.update pc k v j = .notCreated →
      main = .atInitial ∨ ∃ i, main = .atSpawn i ∧ i ≤ j.val := by
  intro j hj
  by_cases hjk : j = k
  · subst hjk; rw [Function.update_same] at hj; exact absurd hj hv
  · rw [Function.update_noteq hjk] at hj; exact h j hj

theorem stepWorker_live (s s' : MutexState) (k : Fin 3) (h : MutexLive s)
    (hs : stepWorker s k = some s') : MutexLive s' := by
  unfold stepWorker at hs
  split at hs
  · cases hs
  · split at hs
    · cases hs
      exact {
        owner := by
          intro j hj
          have hjk : j = k := (Option.some.inj hj).symm
          subst hjk
          show (Function.update s.pc j .atAnnounce j).inCriticalSection = true
          rw [Function.update_same]; rfl
        created := created_update s.main s.pc k .atAnnounce (by decide) h.created }
    · cases hs
  · cases hs
    exact {
      owner := owner_update s.mtx s.pc k .atRead rfl h.owner
      created := created_update s.main s.pc k .atRead (by decide) h.created }
  · cases hs
    exact {
      owner := owner_update s.mtx s.pc k .atWrite rfl h.owner
      created := created_update s.main s.pc k .atWrite (by decide) h.created }
  · cases hs
    exact {
      owner := owner_update s.mtx s.pc k .atPrint rfl h.owner
      created := created_update s.main s.pc k .atPrint (by decide) h.created }
  · cases hs
    exact {
      owner := owner_update s.mtx s.pc k .atUnlock rfl h.owner
      created := created_update s.main s.pc k .atUnlock (by decide) h.created }
  · cases hs
    exact {
      owner := by intro j hj; cases hj
      created := created_update s.main s.pc k .finished (by decide) h.created }
  · cases hs

theorem rank_le (s : MutexState) : s.rank ≤ 31 := by
  have hm : s.main.rank ≤ 10 := by
    cases s.main <;> simp [MainPc.rank] <;> omega
  have hw : ∀ pc : WorkerPc, pc.rank ≤ 7 := by
    intro pc; cases pc <;> simp [WorkerPc.rank]
  have h0 := hw (s.pc 0)
  have h1 := hw (s.pc 1)
  have h2 := hw (s.pc 2)
  simp only [MutexState.rank, countThreads]
  omega

theorem stepMain_rank (s s' : MutexState) (h : MutexInv s) (hs : stepMain s = some s') :
    s.rank < s'.rank := by
  have hmain := h.main
  unfold stepMain at hs
  split at hs
  · rename_i hm
    cases hs
    simp [MutexState.rank, hm, MainPc.rank]
  · rename_i i hm
    rw [hm] at hmain
    split at hs
    · rename_i hi
      cases hs
      have hupd := countThreads_update WorkerPc.rank s.pc ⟨i, hi⟩ .atLock
      rw [hmain ⟨i, hi⟩ (Nat.le_refl i)] at hupd
      simp only [WorkerPc.rank] at hupd
      simp only [MutexState.rank, hm, MainPc.rank]
      omega
    · rename_i hi
      cases hs
      simp only [MutexState.rank, hm, MainPc.rank]
      omega
  · rename_i i hm
    split at hs
    · rename_i hi
      split at hs
      · cases hs
        simp only [MutexState.rank, hm, MainPc.rank]
        omega
      · cases hs
    · rename_i hi
      cases hs
      simp only [MutexState.rank, hm, MainPc.rank]
      omega
  · rename_i hm
    cases hs
    simp [MutexState.rank, hm, MainPc.rank]
  · cases hs

theorem stepWorker_rank (s s' : MutexState) (k : Fin 3) (hs : stepWorker s k = some s') :
    s.rank < s'.rank := by
  unfold stepWorker at hs
  split at hs
  · cases hs
  · rename_i hpc
    split at hs
    · cases hs
      have hupd := countThreads_update WorkerPc.rank s.pc k .atAnnounce
      rw [hpc] at hupd
      simp only [WorkerPc.rank] at hupd
      simp only [MutexState.rank]
      omega
    · cases hs
  · rename_i hpc
    cases hs
    have hupd := countThreads_update WorkerPc.rank s.pc k .atRead
    rw [hpc] at hupd
    simp only [WorkerPc.rank] at hupd
    simp only [MutexState.rank]
    omega
  · rename_i hpc
    cases hs
    have hupd := countThreads_update WorkerPc.rank s.pc k .atWrite
    rw [hpc] at hupd
    simp only [WorkerPc.rank] at hupd
    simp only [MutexState.rank]
    omega
  · rename_i hpc
    cases hs
    have hupd := countThreads_update WorkerPc.rank s.pc k .atPrint
    rw [hpc] at hupd
    simp only [WorkerPc.rank] at hupd
    simp only [MutexState.rank]
    omega
  · rename_i hpc
    cases hs
    have hupd := countThreads_update WorkerPc.rank s.pc k .atUnlock
    rw [hpc] at hupd
    simp only [WorkerPc.rank] at hupd
    simp only [MutexState.rank]
    omega
  · rename_i hpc
    cases hs
    have hupd := countThreads_update WorkerPc.rank s.pc k .finished
    rw [hpc] at hupd
    simp only [WorkerPc.rank] at hupd
    simp only [MutexState.rank]
    omega
  · cases hs

theorem stepWorker_isSome_of_inCriticalSection (s : MutexState) (k : Fin 3)
    (h : (s.pc k).inCriticalSection = true) : (stepWorker s k).isSome = true := by
  unfold stepWorker
  cases hpc : s.pc k <;> simp [hpc, WorkerPc.inCriticalSection] at h ⊢

/-- No deadlock: as long as the main thread has not reached the end, some thread has a
step. -/
theorem exists_step (s : MutexState) (hlive : MutexLive s) (hm : s.main ≠ .finished) :
    ∃ thread, (stepThread s thread).isSome = true := by
  cases hmain : s.main with
  | atInitial => exact ⟨none, by simp [stepThread, stepMain, hmain]⟩
  | atSpawn i =>
    refine ⟨none, ?_⟩
    by_cases hi : i < 3 <;> simp [stepThread, stepMain, hmain, hi]
  | atFinal => exact ⟨none, by simp [stepThread, stepMain, hmain]⟩
  | finished => exact absurd hmain hm
  | atJoin i =>
    by_cases hi : i < 3
    · by_cases hfin : s.pc ⟨i, hi⟩ = .finished
      · exact ⟨none, by simp [stepThread, stepMain, hmain, hi, hfin]⟩
      · have hcr : s.pc ⟨i, hi⟩ ≠ .notCreated := by
          intro hnc
          rcases hlive.created _ hnc with h0 | ⟨i', hi', _⟩
          · rw [hmain] at h0; cases h0
          · rw [hmain] at hi'; cases hi'
        by_cases hcrit : (s.pc ⟨i, hi⟩).inCriticalSection = true
        · exact ⟨some ⟨i, hi⟩, stepWorker_isSome_of_inCriticalSection s _ hcrit⟩
        · have hlock : s.pc ⟨i, hi⟩ = .atLock := by
            cases hpc : s.pc ⟨i, hi⟩ <;>
              simp_all [WorkerPc.inCriticalSection]
          cases hmtx : s.mtx with
          | none =>
            exact ⟨some ⟨i, hi⟩, by simp [stepThread, stepWorker, hlock, hmtx]⟩
          | some k =>
            exact ⟨some k, stepWorker_isSome_of_inCriticalSection s k (hlive.owner k hmtx)⟩
    · exact ⟨none, by simp [stepThread, stepMain, hmain, hi]⟩

/-- Every state of a run satisfies the invariants, and a run of `n` steps has rank at
least `n` more than its first state. -/
theorem runSchedule_inv (schedule : List (Option (Fin 3))) (s s' : MutexState)
    (hinv : MutexInv s) (hlive : MutexLive s) (h : runSchedule s schedule = some s') :
    MutexInv s' ∧ MutexLive s' ∧ s.rank + schedule.length ≤ s'.rank := by
  induction schedule generalizing s with
  | nil =>
    simp only [runSchedule, Option.some.injEq] at h
    subst h
    exact ⟨hinv, hlive, by simp⟩
  | cons thread rest ih =>
    simp only [runSchedule] at h
    cases hstep : stepThread s thread with
    | none => rw [hstep] at h; cases h
    | some s1 =>
      rw [hstep] at h
      cases thread with
      | none =>
        have h1 := stepMain_inv s s1 hinv hstep
        have h2 := stepMain_live s s1 hinv hlive hstep
        have h3 := stepMain_rank s s1 hinv hstep
        obtain ⟨a, b, c⟩ := ih s1 h1 h2 h
        exact ⟨a, b, by simp only [List.length_cons]; omega⟩
      | some k =>
        have h1 := stepWorker_inv s s1 k hinv hstep
        have h2 := stepWorker_live s s1 k hlive hstep
        have h3 := stepWorker_rank s s1 k hstep
        obtain ⟨a, b, c⟩ := ih s1 h1 h2 h
        exact ⟨a, b, by simp only [List.length_cons]; omega⟩

/-- C13: in every run of `useMutex`, whatever the interleaving of the threads, no two
threads are between `mtx.lock()` and `mtx.unlock()` at once, so their read-modify-write
sections of `sharedResource` do not overlap; when the main thread has reached the end, the
lines `sharedResource value:` show `1`, `2`, `3` in this order, one line for each of the
three threads, and the last line written is `Final sharedResource value: 3`.  Every run
reaches that end: while the main thread has not, some thread has a step, and no run has
more than `31` steps. -/
theorem useMutex_spec (schedule : List (Option (Fin 3))) (s : MutexState)
    (h : useMutex schedule = some s) :
    (∀ i j, (s.pc i).inCriticalSection = true → (s.pc j).inCriticalSection = true → i = j) ∧
    (s.main = .finished →
      (valueLines s.out).map Prod.snd = [1, 2, 3] ∧
      ((valueLines s.out).map Prod.fst).Perm [0, 1, 2] ∧
      s.out.getLast? = some (.final 3)) ∧
    (s.main ≠ .finished → ∃ thread, (stepThread s thread).isSome = true) ∧
    schedule.length ≤ 31 := by
  obtain ⟨hinv, hlive, hrank⟩ :=
    runSchedule_inv schedule MutexState.init s mutexInv_init mutexLive_init h
  refine ⟨?_, ?_, exists_step s hlive, ?_⟩
  · intro i j hi hj
    by_contra hij
    have h1 := add_le_countThreads WorkerPc.holds s.pc i j hij
    have h2 := hinv.held
    simp only [WorkerPc.holds, hi, hj, if_true] at h1
    split at h2 <;> omega
  · intro hm
    have hmain := hinv.main
    rw [hm] at hmain
    obtain ⟨hfin, hlast⟩ := hmain
    have hvalues := hinv.values
    rw [countThreads_finished _ _ hfin] at hvalues
    refine ⟨by rw [hvalues]; rfl, ?_, hlast⟩
    rw [List.perm_ext_iff_of_nodup hinv.nodup (by decide)]
    intro k
    rw [hinv.mem k, hfin k]
    constructor
    · intro _; fin_cases k <;> simp
    · intro _; rfl
  · have := rank_le s
    have h0 : MutexState.init.rank = 0 := rfl
    omega

/-- The run of the sample schedule is complete: the second thread writes `1`, the third
`2`, the first `3`, and the last line is `Final sharedResource value: 3`. -/
theorem useMutex_spec_witness :
    ∃ s, useMutex sampleSchedule = some s ∧ s.main = .finished ∧
      valueLines s.out = [(1, 1), (2, 2), (0, 3)] ∧
      (valueLines s.out).map Prod.snd = [1, 2, 3] ∧
      ((valueLines s.out).map Prod.fst).Perm [0, 1, 2] ∧
      s.out.getLast? = some (.final 3) := by
  have hrun : (useMutex sampleSchedule).map (fun s => (s.main, valueLines s.out))
      = some (.finished, [(1, 1), (2, 2), (0, 3)]) := by decide
  cases h : useMutex sampleSchedule with
  | none => rw [h] at hrun; cases hrun
  | some s =>
    rw [h] at hrun
    have hm : s.main = .finished := congrArg Prod.fst (Option.some.inj hrun)
    have hv : valueLines s.out = [(1, 1), (2, 2), (0, 3)] :=
      congrArg Prod.snd (Option.some.inj hrun)
    exact ⟨s, rfl, hm, hv, (useMutex_spec sampleSchedule s h).2.1 hm⟩

end CodingLab
